import Mathlib

/-!
Verification development for aggregate_md.py, a tool that walks a directory
tree, collects Markdown files, groups them by directory and writes one
aggregated document.  Text content is modelled as `List Char`, paths as lists
of path segments (`List String`), and the file system as a finite tree.
-/

/-! ## Rewriter: `adjust_headings`

The source rewrites headings with
`re.sub(r'^(#+)(\s+.+)$', increase_heading, content, flags=re.MULTILINE)`.
We model the Python regex engine's behaviour of this particular pattern
faithfully, including its backtracking over the greedy `\s+` (which may cross
newlines, since `\s` matches `\n`) and the requirement that `.+` match at
least one non-newline character.
-/

/-- Characters matched by Python's regex class `\s` (ASCII range; the exotic
unicode whitespace characters are not modelled). -/
def pySpace (c : Char) : Bool :=
  c = ' ' || c = '\t' || c = '\n' || c = '\r' || c = '\x0b' || c = '\x0c'

/-- Length of the leading run of characters satisfying `p`. -/
def countWhile (p : Char → Bool) : List Char → Nat
  | [] => 0
  | c :: rest => if p c then countWhile p rest + 1 else 0

/-- Length of the leading run of `'#'` characters, i.e. what `(#+)` captures. -/
def countHashes : List Char → Nat :=
  countWhile (fun c => c = '#')

/-- Test of whether the regex atom `.` can match at position `k` of `t`:
the position must exist and hold a non-newline character. -/
def okAt (t : List Char) (k : Nat) : Bool :=
  match t.get? k with
  | some c => c ≠ '\n'
  | none => false

/-- Backtracking search of the regex engine: the largest `k` with
`1 ≤ k ≤ w` such that position `k` of `t` holds a non-newline character
(there `.+` can start matching after `\s+` consumed `k` characters). -/
def findK (t : List Char) : Nat → Option Nat
  | 0 => none
  | k + 1 => if okAt t (k + 1) then some (k + 1) else findK t k

/-- Attempt to match `^(#+)(\s+.+)$` at the start of `s` (a line start).
On success returns the length of the `#` run (group 1), the text of group 2,
and the remainder of the string after the match. -/
def matchHeading (s : List Char) : Option (Nat × List Char × List Char) :=
  if countHashes s = 0 then none
  else if countWhile pySpace (s.drop (countHashes s)) = 0 then none
  else
    match findK (s.drop (countHashes s)) (countWhile pySpace (s.drop (countHashes s))) with
    | none => none
    | some k =>
      some (countHashes s,
        (s.drop (countHashes s)).take
          (k + countWhile (fun c => c ≠ '\n') ((s.drop (countHashes s)).drop k)),
        (s.drop (countHashes s)).drop
          (k + countWhile (fun c => c ≠ '\n') ((s.drop (countHashes s)).drop k)))

/-- Split off the first line of `s`, keeping its terminating newline, and
return it together with the rest of the string. -/
def breakLine : List Char → List Char × List Char
  | [] => ([], [])
  | c :: rest =>
    if c = '\n' then ([c], rest)
    else ((c :: (breakLine rest).1), (breakLine rest).2)

/-- Fuel-indexed scan of `re.sub`: at each line start try the pattern; on a
match emit `'#' * (len(group1) + shift) + group2` and resume scanning after
the match (i.e. after the next newline); otherwise copy the line unchanged. -/
def subGo (shift : Nat) : Nat → List Char → List Char
  | 0, s => s
  | fuel + 1, s =>
    match s with
    | [] => []
    | _ :: _ =>
      match matchHeading s with
      | some (m, g2, rest) =>
        List.replicate (m + shift) '#' ++ g2 ++
          (match rest with
           | [] => []
           | a :: as => a :: subGo shift fuel as)
      | none => (breakLine s).1 ++ subGo shift fuel (breakLine s).2

/-- Result of `re.sub(r'^(#+)(\s+.+)$', increase_heading, s, flags=re.MULTILINE)`
with `increase_heading` lengthening the `#` run by `shift`. -/
def subHeadings (shift : Nat) (s : List Char) : List Char :=
  subGo shift s.length s

/-- Model of `adjust_headings(content, level_increase)` from the source:
non-positive shifts return the content unchanged, otherwise every occurrence
of the multiline pattern `^(#+)(\s+.+)$` has its `#` run lengthened. -/
def adjust_headings (content : List Char) (level_increase : Int) : List Char :=
  if level_increase ≤ 0 then content
  else subHeadings level_increase.toNat content

example : adjust_headings "# Title".toList 3 = "#### Title".toList := by decide
example : adjust_headings "# ".toList 3 = "# ".toList := by decide
example : adjust_headings "#\nabc".toList 3 = "####\nabc".toList := by decide
example : adjust_headings "## x\n# y".toList 3 = "##### x\n#### y".toList := by decide
example : adjust_headings "x # y".toList 3 = "x # y".toList := by decide
example : adjust_headings "#x".toList 3 = "#x".toList := by decide

example : adjust_headings "#  ".toList 3 = "####  ".toList := by decide
example : adjust_headings "# \nabc".toList 3 = "#### \nabc".toList := by decide
example : adjust_headings "#\t\n".toList 3 = "#\t\n".toList := by decide
example : adjust_headings "###\nfoo".toList 3 = "######\nfoo".toList := by decide
example : adjust_headings "#  \n".toList 3 = "####  \n".toList := by decide
example : adjust_headings "#\n\nabc".toList 3 = "####\n\nabc".toList := by decide
example : adjust_headings "# a\nb".toList 3 = "#### a\nb".toList := by decide
example : adjust_headings "####abc".toList 3 = "####abc".toList := by decide
example : adjust_headings "#".toList 3 = "#".toList := by decide
example : adjust_headings "## x\n\n### y\n".toList 3 = "##### x\n\n###### y\n".toList := by decide

/-! ### Basic lemmas about the scanning primitives -/

theorem countWhile_le (p : Char → Bool) : ∀ l : List Char, countWhile p l ≤ l.length := by
  intro l
  induction l with
  | nil => simp [countWhile]
  | cons c rest ih =>
    by_cases h : p c = true
    · simp [countWhile, h]; omega
    · simp [countWhile, h]

theorem countWhile_lt (p : Char → Bool) :
    ∀ l : List Char, (∃ x ∈ l, p x = false) → countWhile p l < l.length := by
  intro l
  induction l with
  | nil => rintro ⟨x, hx, _⟩; cases hx
  | cons c rest ih =>
    rintro ⟨x, hx, hpx⟩
    cases h : p c with
    | true =>
      rcases List.mem_cons.mp hx with rfl | hx'
      · rw [h] at hpx; cases hpx
      · have := ih ⟨x, hx', hpx⟩
        simp only [countWhile, h, if_true, List.length_cons]
        omega
    | false =>
      simp [countWhile, h]

theorem countWhile_all_append (p : Char → Bool) :
    ∀ (a b : List Char), (∀ x ∈ a, p x = true) →
      countWhile p (a ++ b) = a.length + countWhile p b := by
  intro a b ha
  induction a with
  | nil => simp
  | cons c rest ih =>
    have hc : p c = true := ha c (List.mem_cons_self c rest)
    simp only [List.cons_append, countWhile, hc, if_true, List.length_cons, List.append_eq]
    rw [ih (fun x hx => ha x (List.mem_cons_of_mem c hx))]
    omega

theorem countWhile_head_false (p : Char → Bool) (c : Char) (t : List Char)
    (h : p c = false) : countWhile p (c :: t) = 0 := by
  simp [countWhile, h]

theorem countWhile_take (p : Char → Bool) :
    ∀ l : List Char, ∀ x ∈ l.take (countWhile p l), p x = true := by
  intro l
  induction l with
  | nil => intro x hx; simp [countWhile] at hx
  | cons c rest ih =>
    intro x hx
    cases h : p c with
    | true =>
      simp only [countWhile, h, if_true, List.take_succ_cons] at hx
      rcases List.mem_cons.mp hx with rfl | hx'
      · exact h
      · exact ih x hx'
    | false => simp [countWhile, h] at hx

theorem countWhile_drop_head (p : Char → Bool) :
    ∀ (l : List Char) (c : Char) (t : List Char),
      l.drop (countWhile p l) = c :: t → p c = false := by
  intro l
  induction l with
  | nil => intro c t h; simp [countWhile] at h
  | cons a rest ih =>
    intro c t h
    cases ha : p a with
    | true =>
      simp only [countWhile, ha, if_true, List.drop_succ_cons] at h
      exact ih c t h
    | false =>
      simp only [countWhile, ha, if_false, List.drop_zero] at h
      cases h
      exact ha

theorem breakLine_snd_le : ∀ s : List Char, (breakLine s).2.length ≤ s.length := by
  intro s
  induction s with
  | nil => simp [breakLine]
  | cons c rest ih =>
    by_cases h : c = '\n'
    · simp [breakLine, h]
    · simp only [breakLine, h, if_false]
      simpa using Nat.le_succ_of_le ih

theorem breakLine_snd_lt (c : Char) (rest : List Char) :
    (breakLine (c :: rest)).2.length < (c :: rest).length := by
  by_cases h : c = '\n'
  · simp [breakLine, h]
  · simp only [breakLine, h, if_false, List.length_cons]
    exact Nat.lt_succ_of_le (breakLine_snd_le rest)

theorem breakLine_no_nl : ∀ l : List Char, '\n' ∉ l → breakLine l = (l, []) := by
  intro l hl
  induction l with
  | nil => rfl
  | cons c rest ih =>
    have hc : c ≠ '\n' := fun h => hl (h ▸ List.mem_cons_self c rest)
    have hr : '\n' ∉ rest := fun h => hl (List.mem_cons_of_mem c h)
    simp [breakLine, hc, ih hr]

theorem breakLine_append (l r : List Char) (hl : '\n' ∉ l) :
    breakLine (l ++ '\n' :: r) = (l ++ ['\n'], r) := by
  induction l with
  | nil => simp [breakLine]
  | cons c rest ih =>
    have hc : c ≠ '\n' := fun h => hl (h ▸ List.mem_cons_self c rest)
    have hr : '\n' ∉ rest := fun h => hl (List.mem_cons_of_mem c h)
    simp [breakLine, hc, ih hr]

theorem okAt_true (t : List Char) (k : Nat) (h : okAt t k = true) :
    ∃ c, t.get? k = some c ∧ c ≠ '\n' := by
  unfold okAt at h
  cases hg : t.get? k with
  | some c =>
    rw [hg] at h
    simp only [decide_eq_true_eq] at h
    exact ⟨c, rfl, h⟩
  | none => rw [hg] at h; cases h

theorem okAt_of_get (t : List Char) (k : Nat) (c : Char)
    (hg : t.get? k = some c) (hc : c ≠ '\n') : okAt t k = true := by
  unfold okAt
  rw [hg]
  exact decide_eq_true hc

theorem findK_some (t : List Char) :
    ∀ (w k : Nat), findK t w = some k →
      1 ≤ k ∧ k ≤ w ∧ ∃ c, t.get? k = some c ∧ c ≠ '\n' := by
  intro w
  induction w with
  | zero => intro k h; simp [findK] at h
  | succ w ih =>
    intro k h
    rw [findK] at h
    cases hok : okAt t (w + 1) with
    | true =>
      rw [hok] at h
      simp only [if_true] at h
      cases h
      exact ⟨Nat.succ_le_succ (Nat.zero_le w), Nat.le_refl _, okAt_true t (w + 1) hok⟩
    | false =>
      rw [hok] at h
      simp only [Bool.false_eq_true, if_false] at h
      obtain ⟨h1, h2, hex⟩ := ih k h
      exact ⟨h1, Nat.le_succ_of_le h2, hex⟩

theorem findK_at_top (t : List Char) (w : Nat) (hw : 1 ≤ w)
    (hok : okAt t w = true) : findK t w = some w := by
  cases w with
  | zero => cases hw
  | succ w =>
    rw [findK, hok]
    simp only [if_true]

theorem matchHeading_nil : matchHeading [] = none := rfl

theorem matchHeading_some_length (s : List Char) (m : Nat) (g2 rest : List Char)
    (h : matchHeading s = some (m, g2, rest)) : rest.length + 2 ≤ s.length := by
  unfold matchHeading at h
  by_cases hm0 : countHashes s = 0
  · rw [if_pos hm0] at h; cases h
  · rw [if_neg hm0] at h
    by_cases hw : countWhile pySpace (s.drop (countHashes s)) = 0
    · rw [if_pos hw] at h; cases h
    · rw [if_neg hw] at h
      cases hf : findK (s.drop (countHashes s)) (countWhile pySpace (s.drop (countHashes s))) with
      | none => rw [hf] at h; cases h
      | some k =>
        rw [hf] at h
        obtain ⟨hk1, _, c, hg, hc⟩ := findK_some _ _ _ hf
        obtain ⟨hklt, _⟩ := List.get?_eq_some.mp hg
        have hdrop : (s.drop (countHashes s)).drop k =
            c :: (s.drop (countHashes s)).drop (k + 1) := by
          rw [List.drop_eq_get_cons hklt]
          rw [List.get?_eq_some.mp hg |>.choose_spec]
        have hj : 1 ≤ countWhile (fun c => c ≠ '\n') ((s.drop (countHashes s)).drop k) := by
          rw [hdrop, countWhile]
          rw [decide_eq_true hc]
          simp
        have hrest : rest = (s.drop (countHashes s)).drop
            (k + countWhile (fun c => c ≠ '\n') ((s.drop (countHashes s)).drop k)) := by
          cases h; rfl
        have hm1 : 1 ≤ countHashes s := Nat.one_le_iff_ne_zero.mpr hm0
        have hms : countHashes s ≤ s.length := countWhile_le _ s
        have ht : (s.drop (countHashes s)).length = s.length - countHashes s :=
          List.length_drop _ _
        have hr : rest.length = (s.drop (countHashes s)).length -
            (k + countWhile (fun c => c ≠ '\n') ((s.drop (countHashes s)).drop k)) := by
          rw [hrest, List.length_drop]
        omega

theorem subGo_congr (shift : Nat) :
    ∀ (fuel fuel' : Nat) (s : List Char), s.length ≤ fuel → s.length ≤ fuel' →
      subGo shift fuel s = subGo shift fuel' s := by
  intro fuel
  induction fuel with
  | zero =>
    intro fuel' s h _
    have : s = [] := List.eq_nil_of_length_eq_zero (Nat.le_zero.mp h)
    subst this
    cases fuel' <;> rfl
  | succ n ih =>
    intro fuel' s h h'
    cases fuel' with
    | zero =>
      have : s = [] := List.eq_nil_of_length_eq_zero (Nat.le_zero.mp h')
      subst this
      rfl
    | succ n' =>
      cases s with
      | nil => rfl
      | cons a s' =>
        show (match matchHeading (a :: s') with
          | some (m, g2, rest) =>
            List.replicate (m + shift) '#' ++ g2 ++
              (match rest with
               | [] => []
               | b :: bs => b :: subGo shift n bs)
          | none => (breakLine (a :: s')).1 ++ subGo shift n (breakLine (a :: s')).2) =
          (match matchHeading (a :: s') with
          | some (m, g2, rest) =>
            List.replicate (m + shift) '#' ++ g2 ++
              (match rest with
               | [] => []
               | b :: bs => b :: subGo shift n' bs)
          | none => (breakLine (a :: s')).1 ++ subGo shift n' (breakLine (a :: s')).2)
        cases hm : matchHeading (a :: s') with
        | some trip =>
          obtain ⟨m, g2, rest⟩ := trip
          have hlen := matchHeading_some_length _ _ _ _ hm
          cases rest with
          | nil => rfl
          | cons b bs =>
            have hbs : bs.length ≤ n := by
              simp only [List.length_cons] at hlen
              simp only [List.length_cons] at h
              omega
            have hbs' : bs.length ≤ n' := by
              simp only [List.length_cons] at hlen
              simp only [List.length_cons] at h'
              omega
            simp only [ih n' bs hbs hbs']
        | none =>
          have hlt := breakLine_snd_lt a s'
          have hle : (breakLine (a :: s')).2.length ≤ n := by
            simp only [List.length_cons] at hlt h
            omega
          have hle' : (breakLine (a :: s')).2.length ≤ n' := by
            simp only [List.length_cons] at hlt h'
            omega
          simp only [ih n' (breakLine (a :: s')).2 hle hle']

theorem subHeadings_nil (shift : Nat) : subHeadings shift [] = [] := rfl

theorem subHeadings_of_match_nil (shift : Nat) (s : List Char) (m : Nat) (g2 : List Char)
    (hm : matchHeading s = some (m, g2, [])) :
    subHeadings shift s = List.replicate (m + shift) '#' ++ g2 := by
  cases s with
  | nil => cases matchHeading_nil ▸ hm
  | cons a s' =>
    show subGo shift (a :: s').length (a :: s') = _
    rw [List.length_cons]
    show (match matchHeading (a :: s') with
      | some (m, g2, rest) =>
        List.replicate (m + shift) '#' ++ g2 ++
          (match rest with
           | [] => []
           | b :: bs => b :: subGo shift s'.length bs)
      | none => (breakLine (a :: s')).1 ++ subGo shift s'.length (breakLine (a :: s')).2) = _
    simp only [hm]
    simp

theorem subHeadings_of_match_cons (shift : Nat) (s : List Char) (m : Nat)
    (g2 : List Char) (b : Char) (bs : List Char)
    (hm : matchHeading s = some (m, g2, b :: bs)) :
    subHeadings shift s =
      List.replicate (m + shift) '#' ++ g2 ++ b :: subHeadings shift bs := by
  cases s with
  | nil => cases matchHeading_nil ▸ hm
  | cons a s' =>
    show subGo shift (a :: s').length (a :: s') = _
    rw [List.length_cons]
    show (match matchHeading (a :: s') with
      | some (m, g2, rest) =>
        List.replicate (m + shift) '#' ++ g2 ++
          (match rest with
           | [] => []
           | b :: bs => b :: subGo shift s'.length bs)
      | none => (breakLine (a :: s')).1 ++ subGo shift s'.length (breakLine (a :: s')).2) = _
    have hlen := matchHeading_some_length _ _ _ _ hm
    have hbs : bs.length ≤ s'.length := by
      simp only [List.length_cons] at hlen
      omega
    simp only [hm]
    rw [subGo_congr shift s'.length bs.length bs hbs (Nat.le_refl _)]
    simp [subHeadings]

theorem subHeadings_of_none (shift : Nat) (a : Char) (s' : List Char)
    (hm : matchHeading (a :: s') = none) :
    subHeadings shift (a :: s') =
      (breakLine (a :: s')).1 ++ subHeadings shift (breakLine (a :: s')).2 := by
  show subGo shift (a :: s').length (a :: s') = _
  rw [List.length_cons]
  show (match matchHeading (a :: s') with
    | some (m, g2, rest) =>
      List.replicate (m + shift) '#' ++ g2 ++
        (match rest with
         | [] => []
         | b :: bs => b :: subGo shift s'.length bs)
    | none => (breakLine (a :: s')).1 ++ subGo shift s'.length (breakLine (a :: s')).2) = _
  have hlt := breakLine_snd_lt a s'
  have hle : (breakLine (a :: s')).2.length ≤ s'.length := by
    simp only [List.length_cons] at hlt
    omega
  simp only [hm]
  rw [subGo_congr shift s'.length (breakLine (a :: s')).2.length _ hle (Nat.le_refl _)]
  rfl

/-! ### Behaviour of `matchHeading` on a single line

A "line" is a newline-free character list; a line in the middle of the content
is followed by `'\n'` and the rest of the content, the last line by nothing.
-/

/-- Test from the claim text: does the text after the `#` run start with
whitespace? -/
def startsWithSpace : List Char → Bool
  | [] => false
  | c :: _ => pySpace c

theorem pySpace_ne_hash (c : Char) (h : pySpace c = true) : (c = '#') = False := by
  simp only [pySpace] at h
  simp only [eq_iff_iff, iff_false]
  intro hc
  subst hc
  simp at h

theorem pySpace_nl : pySpace '\n' = true := by decide

theorem countHashes_take (l : List Char) :
    l.take (countHashes l) = List.replicate (countHashes l) '#' := by
  rw [List.eq_replicate]
  constructor
  · rw [List.length_take]
    exact Nat.min_eq_left (countWhile_le _ l)
  · intro b hb
    have := countWhile_take (fun c => c = '#') l b hb
    simpa using this

theorem countHashes_decomp (l : List Char) :
    l = List.replicate (countHashes l) '#' ++ l.drop (countHashes l) := by
  conv_lhs => rw [← List.take_append_drop (countHashes l) l]
  rw [countHashes_take]

theorem countHashes_append_of_head (m : Nat) (c : Char) (t : List Char)
    (hc : (c = '#') = False) :
    countHashes (List.replicate m '#' ++ c :: t) = m := by
  show countWhile (fun c => c = '#') _ = m
  rw [countWhile_all_append]
  · rw [countWhile_head_false]
    · simp
    · simp [hc]
  · intro x hx
    rcases List.mem_replicate.mp hx with ⟨_, rfl⟩
    simp

theorem countHashes_pos_head (c : Char) (t : List Char)
    (h : countHashes (c :: t) = 0) : (c = '#') = False := by
  by_cases hc : c = '#'
  · subst hc
    simp [countHashes, countWhile] at h
  · simp [hc]


theorem matchHeading_of_no_hashes (s : List Char) (h : countHashes s = 0) :
    matchHeading s = none := by
  unfold matchHeading
  rw [if_pos h]

theorem countHashes_replicate_append (m : Nat) (c : Char) (t : List Char)
    (hch : (c = '#') = False) :
    countHashes (List.replicate m '#' ++ c :: t) = m :=
  countHashes_append_of_head m c t hch

theorem drop_replicate (m : Nat) (x : List Char) :
    (List.replicate m '#' ++ x).drop m = x :=
  List.drop_left' (List.length_replicate m '#')

theorem matchHeading_nospace (m : Nat) (c : Char) (t : List Char)
    (hc : pySpace c = false) (hch : (c = '#') = False) :
    matchHeading (List.replicate m '#' ++ c :: t) = none := by
  unfold matchHeading
  rw [countHashes_replicate_append m c t hch, drop_replicate m (c :: t)]
  by_cases hm : m = 0
  · rw [if_pos hm]
  · rw [if_neg hm, if_pos (countWhile_head_false pySpace c t hc)]

theorem matchHeading_explicit (m : Nat) (hm : 0 < m)
    (ws : List Char) (hws : ws ≠ []) (hwsp : ∀ x ∈ ws, pySpace x = true)
    (c : Char) (hc : pySpace c = false)
    (tail : List Char) (htail : '\n' ∉ tail)
    (sep : List Char) (hsep : sep = [] ∨ ∃ r, sep = '\n' :: r) :
    matchHeading (List.replicate m '#' ++ ws ++ c :: tail ++ sep) =
      some (m, ws ++ c :: tail, sep) := by
  obtain ⟨wh, wt, rfl⟩ : ∃ wh wt, ws = wh :: wt := by
    cases ws with
    | nil => exact absurd rfl hws
    | cons wh wt => exact ⟨wh, wt, rfl⟩
  have hwh : pySpace wh = true := hwsp wh (List.mem_cons_self wh wt)
  have hcnl : c ≠ '\n' := by
    intro h
    rw [h, pySpace_nl] at hc
    cases hc
  have hshape : List.replicate m '#' ++ (wh :: wt) ++ c :: tail ++ sep =
      List.replicate m '#' ++ (wh :: (wt ++ c :: tail ++ sep)) := by
    simp [List.append_assoc]
  have hch : countHashes (List.replicate m '#' ++ (wh :: wt) ++ c :: tail ++ sep) = m := by
    rw [hshape]
    exact countHashes_replicate_append m wh _ (pySpace_ne_hash wh hwh)
  have hdrop : (List.replicate m '#' ++ (wh :: wt) ++ c :: tail ++ sep).drop m =
      (wh :: wt) ++ c :: tail ++ sep := by
    rw [hshape, drop_replicate]
    simp [List.append_assoc]
  have hw : countWhile pySpace ((wh :: wt) ++ c :: tail ++ sep) = (wh :: wt).length := by
    have h1 : (wh :: wt) ++ c :: tail ++ sep = (wh :: wt) ++ (c :: (tail ++ sep)) := by
      simp [List.append_assoc]
    rw [h1, countWhile_all_append pySpace (wh :: wt) _ hwsp,
      countWhile_head_false pySpace c _ hc]
    omega
  have hget : ((wh :: wt) ++ c :: tail ++ sep).get? (wh :: wt).length = some c := by
    have h1 : (wh :: wt) ++ c :: tail ++ sep = (wh :: wt) ++ (c :: (tail ++ sep)) := by
      simp [List.append_assoc]
    rw [h1, List.get?_append_right (Nat.le_refl _), Nat.sub_self]
    rfl
  have hfind : findK ((wh :: wt) ++ c :: tail ++ sep) (wh :: wt).length =
      some (wh :: wt).length :=
    findK_at_top _ _ (by simp) (okAt_of_get _ _ c hget hcnl)
  have hdrop2 : ((wh :: wt) ++ c :: tail ++ sep).drop (wh :: wt).length =
      (c :: tail) ++ sep := by
    have h1 : (wh :: wt) ++ c :: tail ++ sep = (wh :: wt) ++ ((c :: tail) ++ sep) := by
      simp [List.append_assoc]
    rw [h1, List.drop_left]
  have hj : countWhile (fun x => x ≠ '\n') ((c :: tail) ++ sep) = (c :: tail).length := by
    rw [countWhile_all_append]
    · have hz : countWhile (fun x => x ≠ '\n') sep = 0 := by
        rcases hsep with rfl | ⟨r, rfl⟩
        · rfl
        · exact countWhile_head_false _ _ _ (by simp)
      rw [hz]
      omega
    · intro x hx
      rcases List.mem_cons.mp hx with rfl | hx'
      · exact decide_eq_true hcnl
      · exact decide_eq_true (fun h => htail (h ▸ hx'))
  have htake : ((wh :: wt) ++ c :: tail ++ sep).take ((wh :: wt).length + (c :: tail).length) =
      (wh :: wt) ++ c :: tail := by
    have h1 : (wh :: wt) ++ c :: tail ++ sep = ((wh :: wt) ++ c :: tail) ++ sep := by
      simp [List.append_assoc]
    rw [h1]
    exact List.take_left' (by rw [List.length_append])
  have hdrop3 : ((wh :: wt) ++ c :: tail ++ sep).drop ((wh :: wt).length + (c :: tail).length) =
      sep := by
    have h1 : (wh :: wt) ++ c :: tail ++ sep = ((wh :: wt) ++ c :: tail) ++ sep := by
      simp [List.append_assoc]
    rw [h1]
    exact List.drop_left' (by rw [List.length_append])
  unfold matchHeading
  rw [hch, hdrop, hw]
  rw [if_neg (Nat.pos_iff_ne_zero.mp hm), if_neg (by simp)]
  simp only [hfind]
  rw [hdrop2, hj, htake, hdrop3]

/-- Predicate extracted from the claim text: a line that begins with a `#` run
has some non-whitespace character after that run.  Lines not beginning with
`#` satisfy it vacuously. -/
def goodLine (l : List Char) : Prop :=
  0 < countHashes l → (l.drop (countHashes l)).any (fun c => !(pySpace c)) = true

instance (l : List Char) : Decidable (goodLine l) := by
  unfold goodLine
  infer_instance

theorem line_decomp (l : List Char) (_hm : 0 < countHashes l)
    (hsw : startsWithSpace (l.drop (countHashes l)) = true)
    (hany : (l.drop (countHashes l)).any (fun c => !(pySpace c)) = true) :
    ∃ ws c tail,
      l = List.replicate (countHashes l) '#' ++ ws ++ c :: tail ∧
      l.drop (countHashes l) = ws ++ c :: tail ∧
      ws ≠ [] ∧ (∀ x ∈ ws, pySpace x = true) ∧ pySpace c = false := by
  have hex : ∃ x ∈ l.drop (countHashes l), pySpace x = false := by
    obtain ⟨x, hx, hpx⟩ := List.any_eq_true.mp hany
    exact ⟨x, hx, by simpa using hpx⟩
  have hlt : countWhile pySpace (l.drop (countHashes l)) < (l.drop (countHashes l)).length :=
    countWhile_lt _ _ hex
  have hne : (l.drop (countHashes l)).drop
      (countWhile pySpace (l.drop (countHashes l))) ≠ [] := by
    intro h
    have h2 : ((l.drop (countHashes l)).drop
        (countWhile pySpace (l.drop (countHashes l)))).length = 0 := by rw [h]; rfl
    rw [List.length_drop] at h2
    omega
  cases hdd : (l.drop (countHashes l)).drop (countWhile pySpace (l.drop (countHashes l))) with
  | nil => exact absurd hdd hne
  | cons c tail =>
  have hc : pySpace c = false := countWhile_drop_head _ _ _ _ hdd
  have hsplit : l.drop (countHashes l) =
      (l.drop (countHashes l)).take (countWhile pySpace (l.drop (countHashes l))) ++
        c :: tail := by
    conv_lhs => rw [← List.take_append_drop
      (countWhile pySpace (l.drop (countHashes l))) (l.drop (countHashes l))]
    rw [hdd]
  have hwne : (l.drop (countHashes l)).take
      (countWhile pySpace (l.drop (countHashes l))) ≠ [] := by
    cases hd : l.drop (countHashes l) with
    | nil => rw [hd] at hsw; simp [startsWithSpace] at hsw
    | cons dh dtl =>
      have hdh : pySpace dh = true := by rw [hd] at hsw; simpa [startsWithSpace] using hsw
      simp [countWhile, hdh]
  refine ⟨(l.drop (countHashes l)).take (countWhile pySpace (l.drop (countHashes l))),
    c, tail, ?_, hsplit, hwne, fun x hx => countWhile_take pySpace _ x hx, hc⟩
  conv_lhs => rw [countHashes_decomp l]
  rw [List.append_assoc]
  exact congrArg (fun x => List.replicate (countHashes l) '#' ++ x) hsplit

theorem matchHeading_line_some (l sep : List Char) (hnl : '\n' ∉ l) (hg : goodLine l)
    (hm : 0 < countHashes l) (hsw : startsWithSpace (l.drop (countHashes l)) = true)
    (hsep : sep = [] ∨ ∃ r, sep = '\n' :: r) :
    matchHeading (l ++ sep) = some (countHashes l, l.drop (countHashes l), sep) := by
  obtain ⟨ws, c, tail, hl, hd, hws, hwsp, hc⟩ := line_decomp l hm hsw (hg hm)
  have htail : '\n' ∉ tail := by
    intro h
    apply hnl
    have h1 : '\n' ∈ l.drop (countHashes l) := by
      rw [hd]
      exact List.mem_append_right ws (List.mem_cons_of_mem c h)
    exact List.mem_of_mem_drop h1
  have heq : l ++ sep = List.replicate (countHashes l) '#' ++ ws ++ c :: tail ++ sep := by
    conv_lhs => rw [hl]
  have := matchHeading_explicit (countHashes l) hm ws hws hwsp c hc tail htail sep hsep
  rw [← heq] at this
  rw [hd]
  exact this

theorem matchHeading_line_none (l sep : List Char) (hg : goodLine l)
    (hcond : ¬ (0 < countHashes l ∧ startsWithSpace (l.drop (countHashes l)) = true))
    (hsep : sep = [] ∨ ∃ r, sep = '\n' :: r) :
    matchHeading (l ++ sep) = none := by
  by_cases hm : 0 < countHashes l
  · have hsw : ¬ startsWithSpace (l.drop (countHashes l)) = true := fun h => hcond ⟨hm, h⟩
    cases hd : l.drop (countHashes l) with
    | nil =>
      exfalso
      have := hg hm
      rw [hd] at this
      simp at this
    | cons c t =>
      have hc : pySpace c = false := by
        rw [hd] at hsw
        simpa [startsWithSpace] using hsw
      have hch : (c = '#') = False := by
        have h2 : (fun x => decide (x = '#')) c = false := countWhile_drop_head _ l c t hd
        simpa using h2
      have hl : l = List.replicate (countHashes l) '#' ++ c :: t := by
        conv_lhs => rw [countHashes_decomp l]
        rw [hd]
      rw [hl, List.append_assoc, List.cons_append]
      exact matchHeading_nospace _ c (t ++ sep) hc hch
  · have h0 : countHashes l = 0 := by omega
    cases l with
    | nil =>
      rcases hsep with rfl | ⟨r, rfl⟩
      · exact matchHeading_nil
      · exact matchHeading_of_no_hashes _ (countWhile_head_false _ _ _ (by decide))
    | cons a t =>
      have hch : (a = '#') = False := countHashes_pos_head a t h0
      rw [List.cons_append]
      exact matchHeading_of_no_hashes _ (countWhile_head_false _ _ _ (by simp [hch]))

/-- Per-line rewrite stated by the claim (refinement target, from the spec's
words): a line that begins with one or more `#` followed by whitespace has its
`#` run lengthened by exactly 3; every other line is untouched. -/
def shiftLineSpec (l : List Char) : List Char :=
  if 0 < countHashes l ∧ startsWithSpace (l.drop (countHashes l)) = true then
    List.replicate (countHashes l + 3) '#' ++ l.drop (countHashes l)
  else l

/-- Join a list of lines with newline separators (no trailing newline). -/
def joinLines : List (List Char) → List Char
  | [] => []
  | [l] => l
  | l :: ls => l ++ '\n' :: joinLines ls

theorem subHeadings_line_last (l : List Char) (hnl : '\n' ∉ l) (hg : goodLine l) :
    subHeadings 3 l = shiftLineSpec l := by
  by_cases hcond : 0 < countHashes l ∧ startsWithSpace (l.drop (countHashes l)) = true
  · obtain ⟨hm, hsw⟩ := hcond
    have hmm : matchHeading l = some (countHashes l, l.drop (countHashes l), []) := by
      have := matchHeading_line_some l [] hnl hg hm hsw (Or.inl rfl)
      rwa [List.append_nil] at this
    rw [subHeadings_of_match_nil 3 l _ _ hmm]
    simp only [shiftLineSpec]
    rw [if_pos ⟨hm, hsw⟩]
  · have hnone : matchHeading l = none := by
      have := matchHeading_line_none l [] hg hcond (Or.inl rfl)
      rwa [List.append_nil] at this
    cases l with
    | nil =>
      rw [subHeadings_nil]
      simp only [shiftLineSpec]
      rw [if_neg hcond]
    | cons a s' =>
      rw [subHeadings_of_none 3 a s' hnone, breakLine_no_nl _ hnl]
      simp only [subHeadings_nil, List.append_nil]
      simp only [shiftLineSpec]
      rw [if_neg hcond]

theorem subHeadings_line_mid (l : List Char) (hnl : '\n' ∉ l) (hg : goodLine l)
    (r : List Char) :
    subHeadings 3 (l ++ '\n' :: r) = shiftLineSpec l ++ '\n' :: subHeadings 3 r := by
  by_cases hcond : 0 < countHashes l ∧ startsWithSpace (l.drop (countHashes l)) = true
  · obtain ⟨hm, hsw⟩ := hcond
    have hmm : matchHeading (l ++ '\n' :: r) =
        some (countHashes l, l.drop (countHashes l), '\n' :: r) :=
      matchHeading_line_some l ('\n' :: r) hnl hg hm hsw (Or.inr ⟨r, rfl⟩)
    rw [subHeadings_of_match_cons 3 _ _ _ _ _ hmm]
    simp only [shiftLineSpec]
    rw [if_pos ⟨hm, hsw⟩, List.append_assoc]
  · have hnone : matchHeading (l ++ '\n' :: r) = none :=
      matchHeading_line_none l ('\n' :: r) hg hcond (Or.inr ⟨r, rfl⟩)
    simp only [shiftLineSpec]
    rw [if_neg hcond]
    cases l with
    | nil =>
      rw [List.nil_append]
      rw [subHeadings_of_none 3 '\n' r hnone]
      have hb : breakLine ('\n' :: r) = (['\n'], r) := by simp [breakLine]
      rw [hb]
      rfl
    | cons a t =>
      have hs : (a :: t) ++ '\n' :: r = a :: (t ++ '\n' :: r) := rfl
      rw [hs] at hnone
      rw [hs, subHeadings_of_none 3 a _ hnone, ← hs, breakLine_append _ _ hnl]
      simp [List.append_assoc]

theorem subHeadings_joinLines (lines : List (List Char))
    (h : ∀ l ∈ lines, '\n' ∉ l ∧ goodLine l) :
    subHeadings 3 (joinLines lines) = joinLines (lines.map shiftLineSpec) := by
  induction lines with
  | nil => rfl
  | cons l ls ih =>
    obtain ⟨hnl, hg⟩ := h l (List.mem_cons_self l ls)
    have hrest := fun x hx => h x (List.mem_cons_of_mem l hx)
    cases ls with
    | nil =>
      show subHeadings 3 (joinLines [l]) = joinLines [shiftLineSpec l]
      rw [show joinLines [l] = l from rfl, show joinLines [shiftLineSpec l] =
        shiftLineSpec l from rfl]
      exact subHeadings_line_last l hnl hg
    | cons l2 ls2 =>
      have hj : joinLines (l :: l2 :: ls2) = l ++ '\n' :: joinLines (l2 :: ls2) := rfl
      have hj2 : joinLines ((l :: l2 :: ls2).map shiftLineSpec) =
          shiftLineSpec l ++ '\n' :: joinLines ((l2 :: ls2).map shiftLineSpec) := rfl
      rw [hj, hj2, subHeadings_line_mid l hnl hg _, ih hrest]


/-! ## File-system model

Paths are lists of path segments (`FsPath`); the scan root is a segment list
and every file or directory below it appends one segment per level, which
models the absolute, already-normalised paths that the source manipulates
(`directory` is passed through `os.path.abspath`, and all deeper paths are
produced by `os.path.join(root, name)`).  File contents are modelled by
`ReadResult`: what `open(...).read()` would produce for that file — either
text content or the message of the exception the read raises.
-/

/-- Outcome of reading a file: its text, or the message of the exception the
read raises. -/
inductive ReadResult where
  | ok (content : List Char)
  | err (msg : String)
deriving DecidableEq

mutual
/-- Finite directory tree: named subdirectories and named files, in directory
enumeration order. -/
inductive FS where
  | node (dirs : DirList) (files : List (String × ReadResult)) : FS
/-- List of named subdirectories. -/
inductive DirList where
  | nil : DirList
  | cons (name : String) (sub : FS) (rest : DirList) : DirList
end

abbrev FsPath := List String

/-- Names of the subdirectories, in order. -/
def DirList.names : DirList → List String
  | .nil => []
  | .cons n _ rest => n :: rest.names

/-- Case-insensitive `.md` test: models `file.lower().endswith('.md')`
(`str.lower` restricted to its ASCII behaviour). -/
def isMd (name : String) : Bool :=
  (name.data.map Char.toLower).reverse.take 3 == ['d', 'm', '.']

/-- Validity of one path segment as a file or directory name produced by
`os.walk`: non-empty, no path separator, not one of the special entries. -/
def goodSegB (s : String) : Bool :=
  !(s == "") && !(s.data.contains '/') && !(s == ".") && !(s == "..")

/-- Duplicate-freeness of a name list. -/
def nodupB : List String → Bool
  | [] => true
  | x :: xs => !(xs.contains x) && nodupB xs

mutual
/-- Well-formedness of a directory tree: every name is a valid segment and
names are unique within each directory (as on a real file system). -/
def FS.wf : FS → Bool
  | .node dirs files =>
    dirs.names.all goodSegB && files.all (fun f => goodSegB f.1) &&
    nodupB dirs.names && nodupB (files.map Prod.fst) && dirs.wfD
/-- Well-formedness of every subtree of a directory list. -/
def DirList.wfD : DirList → Bool
  | .nil => true
  | .cons _ sub rest => sub.wf && rest.wfD
end

mutual
/-- Scanner, from `aggregate_markdown_files` lines 46–54: walk the tree from
path `p` (the current `root` of `os.walk`).  At each directory the file loop
keeps names whose lowercased form ends in `.md`, whose path is not in the
exclusion list and is not the output path; the directory loop
(`dirs[:] = [d for d in dirs if ... not in exclude]`) skips excluded
subdirectories before descending. -/
def mdFiles (E : List FsPath) (out : FsPath) : FsPath → FS → List (FsPath × ReadResult)
  | p, .node dirs files =>
    (files.filterMap fun f =>
      if isMd f.1 = true ∧ p ++ [f.1] ∉ E ∧ p ++ [f.1] ≠ out then
        some (p ++ [f.1], f.2)
      else none) ++
    mdFilesD E out p dirs
/-- Scanner loop over the subdirectories of one directory. -/
def mdFilesD (E : List FsPath) (out : FsPath) : FsPath → DirList → List (FsPath × ReadResult)
  | _, .nil => []
  | p, .cons name sub rest =>
    (if p ++ [name] ∉ E then mdFiles E out (p ++ [name]) sub else []) ++
    mdFilesD E out p rest
end

mutual
/-- Directories visited by the traversal (the successive `root` values that
`os.walk` yields after pruning, lines 46–48). -/
def walkDirs (E : List FsPath) : FsPath → FS → List FsPath
  | p, .node dirs _files => p :: walkDirsD E p dirs
/-- Traversal loop over the subdirectories of one directory. -/
def walkDirsD (E : List FsPath) : FsPath → DirList → List FsPath
  | _, .nil => []
  | p, .cons name sub rest =>
    (if p ++ [name] ∉ E then walkDirs E (p ++ [name]) sub else []) ++
    walkDirsD E p rest
end

mutual
/-- Every file under a directory, with no filtering at all (used to state
claims about which files the Scanner selects). -/
def allFiles : FsPath → FS → List (FsPath × ReadResult)
  | p, .node dirs files =>
    files.map (fun f => (p ++ [f.1], f.2)) ++ allFilesD p dirs
/-- Enumeration loop over the subdirectories of one directory. -/
def allFilesD : FsPath → DirList → List (FsPath × ReadResult)
  | _, .nil => []
  | p, .cons name sub rest => allFiles (p ++ [name]) sub ++ allFilesD p rest
end

/-! ## Paths as strings, grouping and the writer -/

/-- Lexicographic comparison of character lists by code point, the order
Python uses to compare and sort strings. -/
def leChars : List Char → List Char → Bool
  | [], _ => true
  | _ :: _, [] => false
  | a :: as, b :: bs =>
    if a < b then true
    else if b < a then false
    else leChars as bs

/-- Python string comparison `a <= b`. -/
def strLe (a b : String) : Bool := leChars a.data b.data

/-- Render an absolute path from its segments: `["r", "a.md"]` is
`"/r/a.md"`. -/
def renderAbs : FsPath → String
  | [] => ""
  | s :: rest => "/" ++ s ++ renderAbs rest

/-- Render a relative path from its segments, the result of
`os.path.relpath(file_path, directory)` for a file below `directory`. -/
def renderRel : List String → String
  | [] => ""
  | [s] => s
  | s :: rest => s ++ "/" ++ renderRel rest

/-- Characters before the last `'/'`; empty if there is none. -/
def charDirname (l : List Char) : List Char :=
  ((l.reverse.dropWhile (fun c => c ≠ '/')).drop 1).reverse

/-- Model of `os.path.dirname` on normalised relative paths: the part before
the last separator, `""` when the path has no separator. -/
def dirnameStr (s : String) : String := (charDirname s.data).asString

/-- Model of `os.path.basename`: the part after the last separator. -/
def basenameStr (s : String) : String :=
  (s.data.reverse.takeWhile (fun c => c ≠ '/')).reverse.asString

/-- Model of `section_path.replace('/', ' > ')` (line 80). -/
def replaceSlash (s : String) : String :=
  (s.data.bind fun c => if c = '/' then [' ', '>', ' '] else [c]).asString

/-- Grouping key of a candidate file (lines 62–63):
`os.path.dirname(os.path.relpath(file_path, directory))`. -/
def sectionKey (root : FsPath) (f : FsPath) : String :=
  dirnameStr (renderRel (f.drop root.length))

/-- Candidate order used by `md_files.sort()` (line 57): ascending by
absolute path string. -/
def candLe (a b : FsPath × ReadResult) : Prop :=
  strLe (renderAbs a.1) (renderAbs b.1) = true

instance : DecidableRel candLe :=
  fun a b => inferInstanceAs (Decidable (strLe (renderAbs a.1) (renderAbs b.1) = true))

/-- The sort of line 57. -/
def sortCands (l : List (FsPath × ReadResult)) : List (FsPath × ReadResult) :=
  List.insertionSort candLe l

/-- String order as a relation, for sorting the section keys (line 76). -/
def strLeP (a b : String) : Prop := strLe a b = true

instance : DecidableRel strLeP :=
  fun a b => inferInstanceAs (Decidable (strLe a b = true))

/-- Keys of the section dictionary in the order the writer visits them:
`sorted(sections.keys())` (line 76). -/
def sectionKeys (root : FsPath) (cands : List (FsPath × ReadResult)) : List String :=
  List.insertionSort strLeP ((cands.map fun c => sectionKey root c.1).dedup)

/-- Files stored under one section key, in candidate order (lines 60–68). -/
def sectionFiles (root : FsPath) (cands : List (FsPath × ReadResult)) (k : String) :
    List (FsPath × ReadResult) :=
  cands.filter fun c => sectionKey root c.1 == k

/-- Horizontal-rule separator written after each file (lines 99 and 101). -/
def separatorStr : String := "\n\n---\n\n"

/-- Per-file heading and path annotation, written before the file is opened
(lines 88–89). -/
def fileHead (root : FsPath) (p : FsPath) : String :=
  "### File: " ++ basenameStr (renderAbs p) ++ "\n\n*Path: " ++
    renderRel (p.drop root.length) ++ "*\n\n"

/-- What the `try` block writes for one file: the content with headings
shifted by 3 and the separator on success (lines 91–99), the inline error
placeholder on a read error (lines 100–101). -/
def fileBody : ReadResult → String
  | .ok content => (adjust_headings content 3).asString ++ separatorStr
  | .err e => "**Error reading file: " ++ e ++ "**" ++ separatorStr

/-- Everything the writer emits for one candidate file (lines 84–101). -/
def fileBlock (root : FsPath) (c : FsPath × ReadResult) : String :=
  fileHead root c.1 ++ fileBody c.2

/-- Section heading (lines 77–81): the literal label for the key `"."`,
otherwise the key with separators replaced by `" > "`. -/
def sectionHeader (k : String) : String :=
  if k = "." then "## Root Files\n\n" else "## " ++ replaceSlash k ++ "\n\n"

/-- All candidates in the order in which the writer emits their blocks:
section by section, files in stored order. -/
def orderedCands (root : FsPath) (cands : List (FsPath × ReadResult)) :
    List (FsPath × ReadResult) :=
  (sectionKeys root cands).bind (sectionFiles root cands)

/-- The whole output document built from the sorted candidate list
(lines 70–101). -/
def docFromCands (root out : FsPath) (cands : List (FsPath × ReadResult)) : String :=
  "# Aggregated Markdown Documentation\n\n*Generated on: " ++
    basenameStr (renderAbs out) ++ "*\n\n" ++
  String.join ((sectionKeys root cands).map fun k =>
    sectionHeader k ++ String.join ((sectionFiles root cands k).map (fileBlock root)))

/-- Resolution of one exclusion entry (line 42):
`os.path.abspath(os.path.join(directory, path))`, modelled for already-normalised
relative entries and the entry `"."`, which resolves to the root itself. -/
def excludeResolve (root : FsPath) (e : String) : FsPath :=
  if e = "." then root else root ++ e.splitOn "/"

/-- Model of `aggregate_markdown_files(directory, output_file, exclude)`:
resolve the exclusion list, scan, sort, group and render the document. -/
def aggregate_markdown_files (fs : FS) (root : FsPath) (out : FsPath)
    (exclude : List String) : String :=
  docFromCands root out (sortCands (mdFiles (exclude.map (excludeResolve root)) out root fs))

example :
    aggregate_markdown_files (FS.node .nil [("a.md", .ok ['x'])]) ["r"] ["out.md"] [] =
      "# Aggregated Markdown Documentation\n\n*Generated on: out.md*\n\n" ++
      "## \n\n### File: a.md\n\n*Path: a.md*\n\nx\n\n---\n\n" := by decide

/-! ### Order lemmas for the sorts -/

theorem leChars_total : ∀ a b : List Char, leChars a b = true ∨ leChars b a = true := by
  intro a
  induction a with
  | nil => intro b; left; rfl
  | cons x xs ih =>
    intro b
    cases b with
    | nil => right; rfl
    | cons y ys =>
      rcases lt_trichotomy x y with h | h | h
      · left
        unfold leChars
        rw [if_pos h]
      · subst h
        rcases ih ys with h2 | h2
        · left
          unfold leChars
          rw [if_neg (lt_irrefl x), if_neg (lt_irrefl x)]
          exact h2
        · right
          unfold leChars
          rw [if_neg (lt_irrefl x), if_neg (lt_irrefl x)]
          exact h2
      · right
        unfold leChars
        rw [if_pos h]

theorem leChars_trans : ∀ a b c : List Char,
    leChars a b = true → leChars b c = true → leChars a c = true := by
  intro a
  induction a with
  | nil => intro b c _ _; rfl
  | cons x xs ih =>
    intro b c hab hbc
    cases b with
    | nil => cases hab
    | cons y ys =>
      cases c with
      | nil => cases hbc
      | cons z zs =>
        unfold leChars at hab hbc ⊢
        rcases lt_trichotomy x y with hxy | hxy | hxy
        · rcases lt_trichotomy y z with hyz | hyz | hyz
          · rw [if_pos (lt_trans hxy hyz)]
          · subst hyz
            rw [if_pos hxy]
          · rw [if_neg (lt_asymm hyz), if_pos hyz] at hbc
            cases hbc
        · subst hxy
          rw [if_neg (lt_irrefl x), if_neg (lt_irrefl x)] at hab
          rcases lt_trichotomy x z with hyz | hyz | hyz
          · rw [if_pos hyz]
          · subst hyz
            rw [if_neg (lt_irrefl x), if_neg (lt_irrefl x)] at hbc ⊢
            exact ih ys zs hab hbc
          · rw [if_neg (lt_asymm hyz), if_pos hyz] at hbc
            cases hbc
        · rw [if_neg (lt_asymm hxy), if_pos hxy] at hab
          cases hab

theorem leChars_antisymm : ∀ a b : List Char,
    leChars a b = true → leChars b a = true → a = b := by
  intro a
  induction a with
  | nil =>
    intro b _ hba
    cases b with
    | nil => rfl
    | cons y ys => cases hba
  | cons x xs ih =>
    intro b hab hba
    cases b with
    | nil => cases hab
    | cons y ys =>
      unfold leChars at hab hba
      rcases lt_trichotomy x y with hxy | hxy | hxy
      · rw [if_neg (lt_asymm hxy), if_pos hxy] at hba
        cases hba
      · subst hxy
        rw [if_neg (lt_irrefl x), if_neg (lt_irrefl x)] at hab hba
        rw [ih ys hab hba]
      · rw [if_neg (lt_asymm hxy), if_pos hxy] at hab
        cases hab

theorem strLe_total (a b : String) : strLe a b = true ∨ strLe b a = true :=
  leChars_total a.data b.data

theorem strLe_trans (a b c : String) (h1 : strLe a b = true) (h2 : strLe b c = true) :
    strLe a c = true :=
  leChars_trans a.data b.data c.data h1 h2

theorem strLe_antisymm (a b : String) (h1 : strLe a b = true) (h2 : strLe b a = true) :
    a = b :=
  String.ext (leChars_antisymm a.data b.data h1 h2)

instance : IsTotal (FsPath × ReadResult) candLe :=
  ⟨fun a b => strLe_total (renderAbs a.1) (renderAbs b.1)⟩

instance : IsTrans (FsPath × ReadResult) candLe :=
  ⟨fun _ _ _ hab hbc => strLe_trans _ _ _ hab hbc⟩

instance : IsTotal String strLeP := ⟨fun a b => strLe_total a b⟩

instance : IsTrans String strLeP := ⟨fun a b c => strLe_trans a b c⟩

/-- Strict version of the candidate order, on candidates with distinct
rendered paths. -/
def candLt (a b : FsPath × ReadResult) : Prop :=
  candLe a b ∧ renderAbs a.1 ≠ renderAbs b.1

instance : IsAntisymm (FsPath × ReadResult) candLt :=
  ⟨fun a b hab hba => absurd (strLe_antisymm _ _ hab.1 hba.1) hab.2⟩

theorem sortCands_perm (l : List (FsPath × ReadResult)) : (sortCands l).Perm l :=
  List.perm_insertionSort candLe l

theorem sortCands_sorted (l : List (FsPath × ReadResult)) :
    List.Sorted candLe (sortCands l) :=
  List.sorted_insertionSort candLe l

theorem sectionKeys_sorted (root : FsPath) (cands : List (FsPath × ReadResult)) :
    List.Sorted strLeP (sectionKeys root cands) :=
  List.sorted_insertionSort strLeP _

theorem sorted_candLt (l : List (FsPath × ReadResult))
    (hs : List.Sorted candLe l) (hnd : (l.map fun c => renderAbs c.1).Nodup) :
    List.Sorted candLt l := by
  have hpw : List.Pairwise (fun a b => renderAbs a.1 ≠ renderAbs b.1) l :=
    List.pairwise_map.mp hnd
  exact List.Pairwise.and hs hpw

theorem sortCands_eq_of_perm (l1 l2 : List (FsPath × ReadResult))
    (hp : l1.Perm l2) (hnd : (l1.map fun c => renderAbs c.1).Nodup) :
    sortCands l1 = sortCands l2 := by
  have hnd2 : (l2.map fun c => renderAbs c.1).Nodup :=
    ((hp.map fun c => renderAbs c.1).nodup_iff).mp hnd
  have p : (sortCands l1).Perm (sortCands l2) :=
    (sortCands_perm l1).trans (hp.trans (sortCands_perm l2).symm)
  have s1 : List.Sorted candLt (sortCands l1) :=
    sorted_candLt _ (sortCands_sorted l1)
      (((sortCands_perm l1).map fun c => renderAbs c.1).nodup_iff.mpr hnd)
  have s2 : List.Sorted candLt (sortCands l2) :=
    sorted_candLt _ (sortCands_sorted l2)
      (((sortCands_perm l2).map fun c => renderAbs c.1).nodup_iff.mpr hnd2)
  exact List.eq_of_perm_of_sorted p s1 s2

/-! ### Path-prefix notions and structural facts about the scanner -/

/-- The path `p` equals `e` or lies below it. -/
def reaches (e p : FsPath) : Prop := ∃ r, p = e ++ r

/-- The path `p` lies strictly below the directory `e` (is a descendant). -/
def under (e p : FsPath) : Prop := ∃ r, r ≠ [] ∧ p = e ++ r

/-- Final segment of a path: the file's name. -/
def lastSeg (p : FsPath) : String := p.getLastD ""

theorem append_eq_append_cases {α : Type} : ∀ (a b r s : List α), a ++ r = b ++ s →
    (∃ t, b = a ++ t) ∨ (∃ t, a = b ++ t) := by
  intro a
  induction a with
  | nil => intro b r s _; left; exact ⟨b, rfl⟩
  | cons x xs ih =>
    intro b r s h
    cases b with
    | nil => right; exact ⟨x :: xs, rfl⟩
    | cons y ys =>
      rw [List.cons_append, List.cons_append] at h
      injection h with h1 h2
      subst h1
      rcases ih ys r s h2 with ⟨t, ht⟩ | ⟨t, ht⟩
      · left
        exact ⟨t, by rw [List.cons_append, ← ht]⟩
      · right
        exact ⟨t, by rw [List.cons_append, ← ht]⟩

theorem reaches_of_append_singleton (e p : FsPath) (x : String) (r : FsPath)
    (h : p ++ [x] = e ++ r) (hr : r ≠ []) : reaches e p := by
  rcases append_eq_append_cases e p r [x] h.symm with ⟨t, ht⟩ | ⟨t, ht⟩
  · exact ⟨t, ht⟩
  · have h2 : p ++ t ++ r = p ++ [x] := by rw [ht] at h; exact h.symm
    rw [List.append_assoc] at h2
    have h3 : t ++ r = [x] := List.append_cancel_left h2
    cases t with
    | nil =>
      refine ⟨[], ?_⟩
      rw [ht]
      simp
    | cons a t' =>
      rw [List.cons_append] at h3
      injection h3 with h4 h5
      have : r = [] := List.append_eq_nil.mp h5 |>.2
      exact absurd this hr

mutual
theorem allFiles_shape : ∀ (p : FsPath) (fs : FS) (c : FsPath × ReadResult),
    c ∈ allFiles p fs → ∃ rel, rel ≠ [] ∧ c.1 = p ++ rel
  | p, .node dirs files, c, hc => by
    rw [allFiles] at hc
    rcases List.mem_append.mp hc with h | h
    · obtain ⟨f, _, rfl⟩ := List.mem_map.mp h
      exact ⟨[f.1], by simp, rfl⟩
    · exact allFilesD_shape p dirs c h
theorem allFilesD_shape : ∀ (p : FsPath) (dl : DirList) (c : FsPath × ReadResult),
    c ∈ allFilesD p dl → ∃ rel, rel ≠ [] ∧ c.1 = p ++ rel
  | p, .cons name sub rest, c, hc => by
    rw [allFilesD] at hc
    rcases List.mem_append.mp hc with h | h
    · obtain ⟨rel, hne, hrel⟩ := allFiles_shape (p ++ [name]) sub c h
      exact ⟨name :: rel, by simp, by rw [hrel, List.append_assoc]; rfl⟩
    · exact allFilesD_shape p rest c h
end

mutual
theorem mdFiles_props (E : List FsPath) (out : FsPath) :
    ∀ (p : FsPath) (fs : FS) (c : FsPath × ReadResult), c ∈ mdFiles E out p fs →
      isMd (lastSeg c.1) = true ∧ c.1 ∉ E ∧ c.1 ≠ out ∧ c ∈ allFiles p fs
  | p, .node dirs files, c, hc => by
    rw [mdFiles] at hc
    rcases List.mem_append.mp hc with h | h
    · obtain ⟨f, hf, hg⟩ := List.mem_filterMap.mp h
      by_cases hcond : isMd f.1 = true ∧ p ++ [f.1] ∉ E ∧ p ++ [f.1] ≠ out
      · rw [if_pos hcond] at hg
        injection hg with hg
        subst hg
        obtain ⟨h1, h2, h3⟩ := hcond
        refine ⟨?_, h2, h3, ?_⟩
        · show isMd ((p ++ [f.1]).getLastD "") = true
          rw [List.getLastD_concat]
          exact h1
        · rw [allFiles]
          exact List.mem_append_left _ (List.mem_map_of_mem _ hf)
      · rw [if_neg hcond] at hg
        cases hg
    · obtain ⟨h1, h2, h3, h4, _⟩ := mdFilesD_props E out p dirs c h
      refine ⟨h1, h2, h3, ?_⟩
      rw [allFiles]
      exact List.mem_append_right _ h4
theorem mdFilesD_props (E : List FsPath) (out : FsPath) :
    ∀ (p : FsPath) (dl : DirList) (c : FsPath × ReadResult), c ∈ mdFilesD E out p dl →
      isMd (lastSeg c.1) = true ∧ c.1 ∉ E ∧ c.1 ≠ out ∧ c ∈ allFilesD p dl ∧
      ∃ name rel, name ∈ dl.names ∧ rel ≠ [] ∧ c.1 = p ++ name :: rel
  | p, .cons name sub rest, c, hc => by
    rw [mdFilesD] at hc
    rcases List.mem_append.mp hc with h | h
    · by_cases hEn : p ++ [name] ∉ E
      · rw [if_pos hEn] at h
        obtain ⟨h1, h2, h3, h4⟩ := mdFiles_props E out (p ++ [name]) sub c h
        obtain ⟨rel, hrne, hrel⟩ := allFiles_shape (p ++ [name]) sub c h4
        refine ⟨h1, h2, h3, ?_, name, rel, ?_, hrne, ?_⟩
        · rw [allFilesD]
          exact List.mem_append_left _ h4
        · show name ∈ (DirList.cons name sub rest).names
          rw [DirList.names]
          exact List.mem_cons_self _ _
        · rw [hrel, List.append_assoc]
          rfl
      · rw [if_neg hEn] at h
        cases h
    · obtain ⟨h1, h2, h3, h4, name2, rel, hn, hrne, hrel⟩ := mdFilesD_props E out p rest c h
      refine ⟨h1, h2, h3, ?_, name2, rel, ?_, hrne, hrel⟩
      · rw [allFilesD]
        exact List.mem_append_right _ h4
      · show name2 ∈ (DirList.cons name sub rest).names
        rw [DirList.names]
        exact List.mem_cons_of_mem _ hn
end

mutual
theorem walkDirs_not_reaches (E : List FsPath) (e : FsPath) (he : e ∈ E) :
    ∀ (p : FsPath) (fs : FS), ¬ reaches e p → ∀ v ∈ walkDirs E p fs, ¬ reaches e v
  | p, .node dirs _files, hp, v, hv => by
    rw [walkDirs] at hv
    rcases List.mem_cons.mp hv with rfl | h
    · exact hp
    · exact walkDirsD_not_reaches E e he p dirs hp v h
theorem walkDirsD_not_reaches (E : List FsPath) (e : FsPath) (he : e ∈ E) :
    ∀ (p : FsPath) (dl : DirList), ¬ reaches e p → ∀ v ∈ walkDirsD E p dl, ¬ reaches e v
  | p, .cons name sub rest, hp, v, hv => by
    rw [walkDirsD] at hv
    rcases List.mem_append.mp hv with h | h
    · by_cases hEn : p ++ [name] ∉ E
      · rw [if_pos hEn] at h
        have hp2 : ¬ reaches e (p ++ [name]) := by
          rintro ⟨r, hr⟩
          cases r with
          | nil =>
            rw [List.append_nil] at hr
            exact hEn (hr ▸ he)
          | cons a t => exact hp (reaches_of_append_singleton e p name _ hr (by simp))
        exact walkDirs_not_reaches E e he (p ++ [name]) sub hp2 v h
      · rw [if_neg hEn] at h
        cases h
    · exact walkDirsD_not_reaches E e he p rest hp v h
end

mutual
theorem mdFiles_not_reaches (E : List FsPath) (out : FsPath) (e : FsPath) (he : e ∈ E) :
    ∀ (p : FsPath) (fs : FS), ¬ reaches e p →
      ∀ c ∈ mdFiles E out p fs, ¬ reaches e c.1
  | p, .node dirs files, hp, c, hc => by
    rw [mdFiles] at hc
    rcases List.mem_append.mp hc with h | h
    · obtain ⟨f, hf, hg⟩ := List.mem_filterMap.mp h
      by_cases hcond : isMd f.1 = true ∧ p ++ [f.1] ∉ E ∧ p ++ [f.1] ≠ out
      · rw [if_pos hcond] at hg
        injection hg with hg
        subst hg
        rintro ⟨r, hr⟩
        have hr' : p ++ [f.1] = e ++ r := hr
        cases r with
        | nil =>
          rw [List.append_nil] at hr'
          exact hcond.2.1 (hr' ▸ he)
        | cons a t => exact hp (reaches_of_append_singleton e p f.1 _ hr' (by simp))
      · rw [if_neg hcond] at hg
        cases hg
    · exact mdFilesD_not_reaches E out e he p dirs hp c h
theorem mdFilesD_not_reaches (E : List FsPath) (out : FsPath) (e : FsPath) (he : e ∈ E) :
    ∀ (p : FsPath) (dl : DirList), ¬ reaches e p →
      ∀ c ∈ mdFilesD E out p dl, ¬ reaches e c.1
  | p, .cons name sub rest, hp, c, hc => by
    rw [mdFilesD] at hc
    rcases List.mem_append.mp hc with h | h
    · by_cases hEn : p ++ [name] ∉ E
      · rw [if_pos hEn] at h
        have hp2 : ¬ reaches e (p ++ [name]) := by
          rintro ⟨r, hr⟩
          cases r with
          | nil =>
            rw [List.append_nil] at hr
            exact hEn (hr ▸ he)
          | cons a t => exact hp (reaches_of_append_singleton e p name _ hr (by simp))
        exact mdFiles_not_reaches E out e he (p ++ [name]) sub hp2 c h
      · rw [if_neg hEn] at h
        cases h
    · exact mdFilesD_not_reaches E out e he p rest hp c h
end

/-! ### Uniqueness of candidate paths in a well-formed tree -/

theorem nodupB_nodup : ∀ l : List String, nodupB l = true → l.Nodup := by
  intro l
  induction l with
  | nil => intro _; exact List.nodup_nil
  | cons x xs ih =>
    intro h
    rw [nodupB, Bool.and_eq_true] at h
    obtain ⟨h1, h2⟩ := h
    rw [List.nodup_cons]
    refine ⟨?_, ih h2⟩
    simp only [Bool.not_eq_true'] at h1
    simpa using h1

theorem wf_node (dirs : DirList) (files : List (String × ReadResult))
    (h : (FS.node dirs files).wf = true) :
    (∀ n ∈ dirs.names, goodSegB n = true) ∧
    (∀ f ∈ files, goodSegB f.1 = true) ∧
    (dirs.names.Nodup) ∧ ((files.map Prod.fst).Nodup) ∧ dirs.wfD = true := by
  rw [FS.wf] at h
  simp only [Bool.and_eq_true] at h
  obtain ⟨⟨⟨⟨h1, h2⟩, h3⟩, h4⟩, h5⟩ := h
  exact ⟨List.all_eq_true.mp h1, List.all_eq_true.mp h2,
    nodupB_nodup _ h3, nodupB_nodup _ h4, h5⟩

theorem wfD_cons (name : String) (sub : FS) (rest : DirList)
    (h : (DirList.cons name sub rest).wfD = true) :
    sub.wf = true ∧ rest.wfD = true := by
  rw [DirList.wfD, Bool.and_eq_true] at h
  exact h

theorem filesPart_pairwise (E : List FsPath) (out : FsPath) (p : FsPath) :
    ∀ files : List (String × ReadResult), (files.map Prod.fst).Nodup →
      List.Pairwise (fun a b => a.1 ≠ b.1)
        (files.filterMap fun f =>
          if isMd f.1 = true ∧ p ++ [f.1] ∉ E ∧ p ++ [f.1] ≠ out then
            some (p ++ [f.1], f.2)
          else none) := by
  intro files
  induction files with
  | nil => intro _; simp
  | cons f fs ih =>
    intro hnd
    rw [List.map_cons, List.nodup_cons] at hnd
    obtain ⟨hf1, hf2⟩ := hnd
    rw [List.filterMap_cons]
    by_cases hcond : isMd f.1 = true ∧ p ++ [f.1] ∉ E ∧ p ++ [f.1] ≠ out
    · rw [if_pos hcond]
      refine List.Pairwise.cons ?_ (ih hf2)
      intro b hb
      obtain ⟨f2, hf2m, hg2⟩ := List.mem_filterMap.mp hb
      by_cases hcond2 : isMd f2.1 = true ∧ p ++ [f2.1] ∉ E ∧ p ++ [f2.1] ≠ out
      · rw [if_pos hcond2] at hg2
        injection hg2 with hg2
        subst hg2
        intro heq
        have : f.1 = f2.1 := by
          have h2 := List.append_cancel_left (heq : p ++ [f.1] = p ++ [f2.1])
          injection h2
        exact hf1 (this ▸ List.mem_map_of_mem Prod.fst hf2m)
      · rw [if_neg hcond2] at hg2
        cases hg2
    · rw [if_neg hcond]
      exact ih hf2

mutual
theorem mdFiles_pairwise (E : List FsPath) (out : FsPath) :
    ∀ (p : FsPath) (fs : FS), fs.wf = true →
      List.Pairwise (fun a b : FsPath × ReadResult => a.1 ≠ b.1) (mdFiles E out p fs)
  | p, .node dirs files, hwf => by
    obtain ⟨_, _, _, hfnd, hwD⟩ := wf_node dirs files hwf
    obtain ⟨hdnd, _⟩ : dirs.names.Nodup ∧ True := ⟨(wf_node dirs files hwf).2.2.1, trivial⟩
    rw [mdFiles, List.pairwise_append]
    refine ⟨filesPart_pairwise E out p files hfnd,
      mdFilesD_pairwise E out p dirs hwD hdnd, ?_⟩
    intro a ha b hb
    obtain ⟨f, _, hg⟩ := List.mem_filterMap.mp ha
    by_cases hcond : isMd f.1 = true ∧ p ++ [f.1] ∉ E ∧ p ++ [f.1] ≠ out
    · rw [if_pos hcond] at hg
      injection hg with hg
      subst hg
      obtain ⟨_, _, _, _, name, rel, _, hrne, hrel⟩ := mdFilesD_props E out p dirs b hb
      intro heq
      have heq2 : p ++ [f.1] = p ++ name :: rel := by
        have h0 : (p ++ [f.1], f.2).1 = b.1 := heq
        rw [hrel] at h0
        exact h0
      have h2 := List.append_cancel_left heq2
      injection h2 with _ h3
      exact hrne h3.symm
    · rw [if_neg hcond] at hg
      cases hg
theorem mdFilesD_pairwise (E : List FsPath) (out : FsPath) :
    ∀ (p : FsPath) (dl : DirList), dl.wfD = true → dl.names.Nodup →
      List.Pairwise (fun a b : FsPath × ReadResult => a.1 ≠ b.1) (mdFilesD E out p dl)
  | _, .nil, _, _ => by
    rw [mdFilesD]
    exact List.Pairwise.nil
  | p, .cons name sub rest, hwf, hnd => by
    obtain ⟨hsub, hrest⟩ := wfD_cons name sub rest hwf
    rw [DirList.names, List.nodup_cons] at hnd
    obtain ⟨hn1, hn2⟩ := hnd
    rw [mdFilesD, List.pairwise_append]
    refine ⟨?_, mdFilesD_pairwise E out p rest hrest hn2, ?_⟩
    · by_cases hEn : p ++ [name] ∉ E
      · rw [if_pos hEn]
        exact mdFiles_pairwise E out (p ++ [name]) sub hsub
      · rw [if_neg hEn]
        exact List.Pairwise.nil
    · intro a ha b hb
      by_cases hEn : p ++ [name] ∉ E
      · rw [if_pos hEn] at ha
        obtain ⟨_, _, _, haf⟩ := mdFiles_props E out (p ++ [name]) sub a ha
        obtain ⟨rela, hane, harel⟩ := allFiles_shape (p ++ [name]) sub a haf
        obtain ⟨_, _, _, _, name2, relb, hn2m, hbne, hbrel⟩ :=
          mdFilesD_props E out p rest b hb
        intro heq
        have h1 : p ++ name :: rela = p ++ name2 :: relb := by
          have e1 : a.1 = p ++ name :: rela := by
            rw [harel, List.append_assoc]
            rfl
          rw [← e1, heq, hbrel]
        have h2 := List.append_cancel_left h1
        injection h2 with h3 _
        exact hn1 (h3 ▸ hn2m)
      · rw [if_neg hEn] at ha
        cases ha
end

theorem mdFiles_nodup (E : List FsPath) (out : FsPath) (p : FsPath) (fs : FS)
    (hwf : fs.wf = true) : (mdFiles E out p fs).Nodup :=
  (mdFiles_pairwise E out p fs hwf).imp fun h heq => h (congrArg Prod.fst heq)

/-! ### Grouping facts: every candidate lands in exactly one section -/

theorem sectionKeys_nodup (root : FsPath) (cands : List (FsPath × ReadResult)) :
    (sectionKeys root cands).Nodup :=
  ((List.perm_insertionSort strLeP _).nodup_iff).mpr (List.nodup_dedup _)

theorem mem_sectionKeys (root : FsPath) (cands : List (FsPath × ReadResult))
    (c : FsPath × ReadResult) (hc : c ∈ cands) :
    sectionKey root c.1 ∈ sectionKeys root cands := by
  unfold sectionKeys
  rw [(List.perm_insertionSort strLeP _).mem_iff, List.mem_dedup]
  exact List.mem_map_of_mem _ hc

theorem mem_sectionFiles_self (root : FsPath) (cands : List (FsPath × ReadResult))
    (c : FsPath × ReadResult) (hc : c ∈ cands) :
    c ∈ sectionFiles root cands (sectionKey root c.1) := by
  unfold sectionFiles
  rw [List.mem_filter]
  exact ⟨hc, by simp⟩

theorem mem_sectionFiles_key (root : FsPath) (cands : List (FsPath × ReadResult))
    (c : FsPath × ReadResult) (k : String) (hc : c ∈ sectionFiles root cands k) :
    k = sectionKey root c.1 := by
  unfold sectionFiles at hc
  have := (List.mem_filter.mp hc).2
  simp only [beq_iff_eq] at this
  exact this.symm

theorem sum_if_single (n : Nat) (k0 : String) :
    ∀ ks : List String, ks.Nodup → k0 ∈ ks →
      (ks.map fun k => if k0 = k then n else 0).sum = n := by
  intro ks
  induction ks with
  | nil => intro _ h; cases h
  | cons k ks ih =>
    intro hnd hk
    rw [List.nodup_cons] at hnd
    rw [List.map_cons, List.sum_cons]
    rcases List.mem_cons.mp hk with rfl | hk'
    · rw [if_pos rfl]
      have hz : (ks.map fun k => if k0 = k then n else 0).sum = 0 := by
        have : ∀ x ∈ ks.map fun k => if k0 = k then n else 0, x = 0 := by
          intro x hx
          obtain ⟨k2, hk2, hx2⟩ := List.mem_map.mp hx
          rw [if_neg (fun h => hnd.1 (by rw [h]; exact hk2))] at hx2
          exact hx2.symm
        exact List.sum_eq_zero this
      rw [hz]
      omega
    · have hne : k0 ≠ k := fun h => hnd.1 (h ▸ hk')
      rw [if_neg hne, ih hnd.2 hk', Nat.zero_add]

theorem count_sectionFiles (root : FsPath) (cands : List (FsPath × ReadResult))
    (c : FsPath × ReadResult) (k : String) :
    List.count c (sectionFiles root cands k) =
      if sectionKey root c.1 = k then List.count c cands else 0 := by
  by_cases hk : sectionKey root c.1 = k
  · rw [if_pos hk]
    exact List.count_filter (by simp [hk])
  · rw [if_neg hk, List.count_eq_zero]
    intro hmem
    exact hk (mem_sectionFiles_key root cands c k hmem).symm

theorem count_orderedCands (root : FsPath) (cands : List (FsPath × ReadResult))
    (c : FsPath × ReadResult) (hc : c ∈ cands) :
    List.count c (orderedCands root cands) = List.count c cands := by
  unfold orderedCands
  rw [List.count_bind]
  have h1 : List.map (List.count c ∘ sectionFiles root cands) (sectionKeys root cands) =
      List.map (fun k => if sectionKey root c.1 = k then List.count c cands else 0)
        (sectionKeys root cands) :=
    List.map_congr_left fun k _ => count_sectionFiles root cands c k
  rw [h1]
  exact sum_if_single _ _ _ (sectionKeys_nodup root cands)
    (mem_sectionKeys root cands c hc)

theorem count_one_of_nodup_mem {α : Type} [BEq α] [LawfulBEq α] :
    ∀ (l : List α) (a : α), l.Nodup → a ∈ l → List.count a l = 1 := by
  intro l
  induction l with
  | nil => intro a _ h; cases h
  | cons x xs ih =>
    intro a hnd ha
    rw [List.nodup_cons] at hnd
    rcases List.mem_cons.mp ha with rfl | ha2
    · rw [List.count_cons_self, List.count_eq_zero.mpr hnd.1]
    · rw [List.count_cons_of_ne (fun h => hnd.1 (by rw [← h]; exact ha2))]
      exact ih a hnd.2 ha2

theorem orderedCands_count_one (root : FsPath) (cands : List (FsPath × ReadResult))
    (c : FsPath × ReadResult) (hc : c ∈ cands) (hnd : cands.Nodup) :
    List.count c (orderedCands root cands) = 1 := by
  rw [count_orderedCands root cands c hc]
  exact count_one_of_nodup_mem cands c hnd hc

/-! ### Membership of unexcluded files, segment validity, root exclusion -/

theorem append_singleton_ne_root (root p : FsPath) (x : String)
    (h : reaches root p) : p ++ [x] ≠ root := by
  obtain ⟨r, rfl⟩ := h
  intro he
  have := congrArg List.length he
  simp only [List.length_append, List.length_cons, List.length_nil] at this
  omega

theorem filterMapCongr {α β : Type} (l : List α) (f g : α → Option β)
    (h : ∀ x ∈ l, f x = g x) : l.filterMap f = l.filterMap g := by
  induction l with
  | nil => rfl
  | cons x xs ih =>
    rw [List.filterMap_cons, List.filterMap_cons,
      h x (List.mem_cons_self x xs), ih (fun y hy => h y (List.mem_cons_of_mem x hy))]

mutual
theorem allFiles_mem_mdFiles (E : List FsPath) (out root : FsPath)
    (c : FsPath × ReadResult)
    (hanc : ∀ q, under root q → under q c.1 → q ∉ E)
    (hmd : isMd (lastSeg c.1) = true) (hE : c.1 ∉ E) (hout : c.1 ≠ out) :
    ∀ (p : FsPath) (fs : FS), reaches root p →
      c ∈ allFiles p fs → c ∈ mdFiles E out p fs
  | p, .node dirs files, hrp, hc => by
    rw [allFiles] at hc
    rw [mdFiles]
    rcases List.mem_append.mp hc with h | h
    · apply List.mem_append_left
      obtain ⟨f, hf, rfl⟩ := List.mem_map.mp h
      apply List.mem_filterMap.mpr
      refine ⟨f, hf, ?_⟩
      have hmdf : isMd f.1 = true := by
        have h0 : isMd ((p ++ [f.1]).getLastD "") = true := hmd
        rwa [List.getLastD_concat] at h0
      rw [if_pos ⟨hmdf, hE, hout⟩]
    · exact List.mem_append_right _
        (allFilesD_mem_mdFiles E out root c hanc hmd hE hout p dirs hrp h)
theorem allFilesD_mem_mdFiles (E : List FsPath) (out root : FsPath)
    (c : FsPath × ReadResult)
    (hanc : ∀ q, under root q → under q c.1 → q ∉ E)
    (hmd : isMd (lastSeg c.1) = true) (hE : c.1 ∉ E) (hout : c.1 ≠ out) :
    ∀ (p : FsPath) (dl : DirList), reaches root p →
      c ∈ allFilesD p dl → c ∈ mdFilesD E out p dl
  | p, .cons name sub rest, hrp, hc => by
    rw [allFilesD] at hc
    rw [mdFilesD]
    rcases List.mem_append.mp hc with h | h
    · apply List.mem_append_left
      obtain ⟨rp, rfl⟩ := hrp
      have hq : root ++ rp ++ [name] ∉ E := by
        apply hanc
        · exact ⟨rp ++ [name], by simp, by rw [List.append_assoc]⟩
        · obtain ⟨rel, hrne, hrel⟩ := allFiles_shape (root ++ rp ++ [name]) sub c h
          exact ⟨rel, hrne, hrel⟩
      rw [if_pos hq]
      exact allFiles_mem_mdFiles E out root c hanc hmd hE hout
        (root ++ rp ++ [name]) sub ⟨rp ++ [name], by rw [List.append_assoc]⟩ h
    · exact List.mem_append_right _
        (allFilesD_mem_mdFiles E out root c hanc hmd hE hout p rest hrp h)
end

mutual
theorem mdFiles_goodRel (E : List FsPath) (out : FsPath) :
    ∀ (p : FsPath) (fs : FS), fs.wf = true → ∀ c ∈ mdFiles E out p fs,
      ∃ rel, rel ≠ [] ∧ c.1 = p ++ rel ∧ ∀ s ∈ rel, goodSegB s = true
  | p, .node dirs files, hwf, c, hc => by
    obtain ⟨hdg, hfg, _, _, hwD⟩ := wf_node dirs files hwf
    rw [mdFiles] at hc
    rcases List.mem_append.mp hc with h | h
    · obtain ⟨f, hf, hg⟩ := List.mem_filterMap.mp h
      by_cases hcond : isMd f.1 = true ∧ p ++ [f.1] ∉ E ∧ p ++ [f.1] ≠ out
      · rw [if_pos hcond] at hg
        injection hg with hg
        subst hg
        refine ⟨[f.1], by simp, rfl, ?_⟩
        intro s hs
        rcases List.mem_singleton.mp hs with rfl
        exact hfg f hf
      · rw [if_neg hcond] at hg
        cases hg
    · exact mdFilesD_goodRel E out p dirs hwD hdg c h
theorem mdFilesD_goodRel (E : List FsPath) (out : FsPath) :
    ∀ (p : FsPath) (dl : DirList), dl.wfD = true →
      (∀ n ∈ dl.names, goodSegB n = true) → ∀ c ∈ mdFilesD E out p dl,
      ∃ rel, rel ≠ [] ∧ c.1 = p ++ rel ∧ ∀ s ∈ rel, goodSegB s = true
  | p, .cons name sub rest, hwf, hng, c, hc => by
    obtain ⟨hsub, hrest⟩ := wfD_cons name sub rest hwf
    rw [mdFilesD] at hc
    rcases List.mem_append.mp hc with h | h
    · by_cases hEn : p ++ [name] ∉ E
      · rw [if_pos hEn] at h
        obtain ⟨rel, hrne, hrel, hrg⟩ := mdFiles_goodRel E out (p ++ [name]) sub hsub c h
        refine ⟨name :: rel, by simp, ?_, ?_⟩
        · rw [hrel, List.append_assoc]
          rfl
        · intro s hs
          rcases List.mem_cons.mp hs with rfl | hs'
          · exact hng s (by rw [DirList.names]; exact List.mem_cons_self _ _)
          · exact hrg s hs'
      · rw [if_neg hEn] at h
        cases h
    · exact mdFilesD_goodRel E out p rest hrest
        (fun n hn => hng n (by rw [DirList.names]; exact List.mem_cons_of_mem _ hn)) c h
end

mutual
theorem mdFiles_root_exclude (E : List FsPath) (out root : FsPath) :
    ∀ (p : FsPath) (fs : FS), reaches root p →
      mdFiles (root :: E) out p fs = mdFiles E out p fs
  | p, .node dirs files, hrp => by
    rw [mdFiles, mdFiles]
    congr 1
    · apply filterMapCongr
      intro f _
      have hne : p ++ [f.1] ≠ root := append_singleton_ne_root root p f.1 hrp
      have hiff : (isMd f.1 = true ∧ p ++ [f.1] ∉ root :: E ∧ p ++ [f.1] ≠ out) ↔
          (isMd f.1 = true ∧ p ++ [f.1] ∉ E ∧ p ++ [f.1] ≠ out) := by
        constructor
        · rintro ⟨h1, h2, h3⟩
          exact ⟨h1, fun hm => h2 (List.mem_cons_of_mem root hm), h3⟩
        · rintro ⟨h1, h2, h3⟩
          refine ⟨h1, fun hm => ?_, h3⟩
          rcases List.mem_cons.mp hm with he | hm2
          · exact hne he
          · exact h2 hm2
      exact if_congr hiff rfl rfl
    · exact mdFilesD_root_exclude E out root p dirs hrp
theorem mdFilesD_root_exclude (E : List FsPath) (out root : FsPath) :
    ∀ (p : FsPath) (dl : DirList), reaches root p →
      mdFilesD (root :: E) out p dl = mdFilesD E out p dl
  | _, .nil, _ => by rw [mdFilesD, mdFilesD]
  | p, .cons name sub rest, hrp => by
    rw [mdFilesD, mdFilesD]
    have hne : p ++ [name] ≠ root := append_singleton_ne_root root p name hrp
    have hiff : (p ++ [name] ∉ root :: E) ↔ (p ++ [name] ∉ E) := by
      constructor
      · intro h2 hm
        exact h2 (List.mem_cons_of_mem root hm)
      · intro h2 hm
        rcases List.mem_cons.mp hm with he | hm2
        · exact hne he
        · exact h2 hm2
    congr 1
    · rw [if_congr hiff rfl rfl]
      by_cases hEn : p ++ [name] ∉ E
      · rw [if_pos hEn, if_pos hEn]
        obtain ⟨rp, rfl⟩ := hrp
        exact mdFiles_root_exclude E out root (root ++ rp ++ [name]) sub
          ⟨rp ++ [name], by rw [List.append_assoc]⟩
      · rw [if_neg hEn, if_neg hEn]
    · exact mdFilesD_root_exclude E out root p rest hrp
end

/-! ### Relating the string-level section key to the segment structure -/

theorem goodSegB_no_slash (s : String) (h : goodSegB s = true) : '/' ∉ s.data := by
  unfold goodSegB at h
  simp only [Bool.and_eq_true, Bool.not_eq_true'] at h
  have h2 := h.1.1.2
  simpa using h2

theorem renderRel_concat (last : String) :
    ∀ init : List String, init ≠ [] →
      renderRel (init ++ [last]) = renderRel init ++ "/" ++ last := by
  intro init
  induction init with
  | nil => intro h; exact absurd rfl h
  | cons s rest ih =>
    intro _
    cases rest with
    | nil => rfl
    | cons s2 rest2 =>
      show s ++ "/" ++ renderRel ((s2 :: rest2) ++ [last]) =
        (s ++ "/" ++ renderRel (s2 :: rest2)) ++ "/" ++ last
      rw [ih (by simp)]
      simp only [String.append_assoc]

theorem charDirname_append_slash (a b : List Char) (hb : '/' ∉ b) :
    charDirname (a ++ '/' :: b) = a := by
  unfold charDirname
  rw [List.reverse_append, List.reverse_cons]
  have h1 : List.dropWhile (fun c => c ≠ '/') (b.reverse ++ ['/'] ++ a.reverse) =
      '/' :: a.reverse := by
    rw [List.append_assoc, List.dropWhile_append]
    have h2 : List.dropWhile (fun c => c ≠ '/') b.reverse = [] := by
      rw [List.dropWhile_eq_nil_iff]
      intro x hx
      have : x ≠ '/' := fun he => hb (he ▸ List.mem_reverse.mp hx)
      exact decide_eq_true this
    rw [h2]
    simp only [List.isEmpty_nil, if_true]
    show List.dropWhile (fun c => c ≠ '/') ('/' :: a.reverse) = '/' :: a.reverse
    rw [List.dropWhile_cons_of_neg]
    simp
  rw [h1]
  simp

theorem asString_data (s : String) : s.data.asString = s := rfl

theorem dirname_renderRel :
    ∀ segs : List String, segs ≠ [] → (∀ s ∈ segs, goodSegB s = true) →
      dirnameStr (renderRel segs) = renderRel segs.dropLast := by
  intro segs hne hg
  obtain ⟨init, last, rfl⟩ : ∃ init last, segs = init ++ [last] := by
    refine ⟨segs.dropLast, segs.getLast hne, ?_⟩
    rw [List.dropLast_append_getLast hne]
  have hlast : goodSegB last = true := hg last (List.mem_append_right init (by simp))
  cases init with
  | nil =>
    show dirnameStr (renderRel [last]) = renderRel ([] ++ [last] : List String).dropLast
    have h1 : renderRel [last] = last := rfl
    rw [h1]
    unfold dirnameStr
    have h2 : charDirname last.data = [] := by
      unfold charDirname
      have h3 : List.dropWhile (fun c => c ≠ '/') last.data.reverse = [] := by
        rw [List.dropWhile_eq_nil_iff]
        intro x hx
        have : x ≠ '/' := fun he =>
          goodSegB_no_slash last hlast (he ▸ List.mem_reverse.mp hx)
        exact decide_eq_true this
      rw [h3]
      rfl
    rw [h2]
    rfl
  | cons i0 irest =>
    rw [renderRel_concat last (i0 :: irest) (by simp)]
    unfold dirnameStr
    have hdata : (renderRel (i0 :: irest) ++ "/" ++ last).data =
        (renderRel (i0 :: irest)).data ++ '/' :: last.data := by
      rw [String.data_append, String.data_append, List.append_assoc]
      rfl
    rw [hdata, charDirname_append_slash _ _ (goodSegB_no_slash last hlast),
      asString_data]
    have : ((i0 :: irest) ++ [last]).dropLast = i0 :: irest := by
      rw [List.dropLast_append_of_ne_nil _ (by simp : ([last] : List String) ≠ [])]
      simp
    rw [this]

/-! ## Claim theorems -/

/-- Sample tree: one Markdown file directly in the root. -/
def fsRootOnly : FS := FS.node .nil [("a.md", .ok ['x'])]

/-- C1: the claim says root-level files get the section key `"."` and the
Writer renders that section as "Root Files".  In the code the key is
`os.path.dirname(os.path.relpath(file_path, directory))`, which is the empty
string for a root-level file, so the `section_path == '.'` branch is dead and
the section is rendered as a bare `"## "` heading.  This theorem runs the
embedded code on a root containing a single file `a.md` and exhibits the
divergence: the key is `""` (not `"."`) and the output contains `"## \n\n"`
instead of `"## Root Files\n\n"`. -/
theorem C1_root_section_bug :
    sectionKey ["r"] ["r", "a.md"] = "" ∧
    sectionHeader "" = "## \n\n" ∧
    sectionHeader "." = "## Root Files\n\n" ∧
    aggregate_markdown_files fsRootOnly ["r"] ["out.md"] [] =
      "# Aggregated Markdown Documentation\n\n*Generated on: out.md*\n\n" ++
        "## \n\n### File: a.md\n\n*Path: a.md*\n\nx\n\n---\n\n" := by
  refine ⟨by decide, by decide, by decide, by decide⟩

/-- C2 counterexample: the claim states that every line beginning with a `#`
run followed by whitespace is lengthened by 3.  The line `"# "` begins with
`#` followed by whitespace, yet `adjust_headings` leaves it unchanged,
because the regex `^(#+)(\s+.+)$` additionally requires a non-empty `.+`
after the whitespace. -/
theorem C2_per_line_cex :
    ¬ (adjust_headings (joinLines [['#', ' ']]) 3 =
        joinLines ([['#', ' ']].map shiftLineSpec)) := by decide

/-- C2 (amended): for every content in which each line that begins with a
`#` run has some non-whitespace character after the run, `adjust_headings`
with shift 3 lengthens the `#` run of every line that begins with one or
more `#` followed by whitespace by exactly 3 and leaves every other line
byte-identical. -/
theorem C2_adjust_headings_per_line (lines : List (List Char))
    (h : ∀ l ∈ lines, '\n' ∉ l ∧ goodLine l) :
    adjust_headings (joinLines lines) 3 = joinLines (lines.map shiftLineSpec) := by
  have h3 : ¬ ((3 : Int) ≤ 0) := by norm_num
  unfold adjust_headings
  rw [if_neg h3]
  exact subHeadings_joinLines lines h

/-- C2 witness: the amended theorem applied to the concrete content
`"# T\nx\n## y"`. -/
theorem C2_adjust_headings_per_line_witness :
    (∀ l ∈ [['#', ' ', 'T'], ['x'], ['#', '#', ' ', 'y']], '\n' ∉ l ∧ goodLine l) ∧
    adjust_headings (joinLines [['#', ' ', 'T'], ['x'], ['#', '#', ' ', 'y']]) 3 =
      joinLines ([['#', ' ', 'T'], ['x'], ['#', '#', ' ', 'y']].map shiftLineSpec) :=
  ⟨by decide, C2_adjust_headings_per_line _ (by decide)⟩

/-- C3: a candidate file whose read raises an error contributes exactly one
block — the per-file heading followed by the inline error placeholder and
the same separator used for successful files — the run is not aborted, and
every candidate (this one included) appears exactly once in the writer's
emission order: nothing is skipped or duplicated. -/
theorem C3_error_placeholder (fs : FS) (root out : FsPath) (E : List FsPath)
    (hwf : fs.wf = true) (c : FsPath × ReadResult) (e : String)
    (hc : c ∈ sortCands (mdFiles E out root fs)) (he : c.2 = .err e) :
    fileBlock root c =
      fileHead root c.1 ++ ("**Error reading file: " ++ e ++ "**" ++ separatorStr) ∧
    List.count c (orderedCands root (sortCands (mdFiles E out root fs))) = 1 ∧
    ∀ c2 ∈ sortCands (mdFiles E out root fs),
      List.count c2 (orderedCands root (sortCands (mdFiles E out root fs))) = 1 := by
  have hperm := sortCands_perm (mdFiles E out root fs)
  have hnd : (sortCands (mdFiles E out root fs)).Nodup :=
    (hperm.nodup_iff).mpr (mdFiles_nodup E out root fs hwf)
  refine ⟨?_, orderedCands_count_one _ _ _ hc hnd,
    fun c2 hc2 => orderedCands_count_one _ _ _ hc2 hnd⟩
  obtain ⟨p, r⟩ := c
  have he2 : r = .err e := he
  subst he2
  rfl

/-- Sample tree for C3: a failing file next to a readable one. -/
def fsErrSample : FS := FS.node .nil [("a.md", .err "boom"), ("b.md", .ok ['h'])]

/-- C3 witness: the theorem applied to a root where `a.md` raises "boom" and
`b.md` reads fine. -/
theorem C3_error_placeholder_witness :
    (fsErrSample.wf = true ∧
     (["r", "a.md"], ReadResult.err "boom") ∈
       sortCands (mdFiles [] ["o.md"] ["r"] fsErrSample)) ∧
    fileBlock ["r"] (["r", "a.md"], ReadResult.err "boom") =
      fileHead ["r"] ["r", "a.md"] ++
        ("**Error reading file: " ++ "boom" ++ "**" ++ separatorStr) ∧
    List.count (["r", "a.md"], ReadResult.err "boom")
      (orderedCands ["r"] (sortCands (mdFiles [] ["o.md"] ["r"] fsErrSample))) = 1 :=
  ⟨⟨by decide, by decide⟩,
    (C3_error_placeholder fsErrSample ["r"] ["o.md"] [] (by decide) _ "boom"
      (by decide) rfl).1,
    (C3_error_placeholder fsErrSample ["r"] ["o.md"] [] (by decide) _ "boom"
      (by decide) rfl).2.1⟩

/-- C4 counterexample: the claim quantifies over every directory in the
exclusion set, but excluding the root directory itself prunes nothing — the
traversal starts inside it and its descendant files are still aggregated. -/
theorem C4_excluded_dir_cex :
    ¬ (∀ e ∈ ([["r"]] : List FsPath),
        (∀ v ∈ walkDirs [["r"]] ["r"] fsRootOnly, ¬ reaches e v) ∧
        (∀ c ∈ mdFiles [["r"]] ["out.md"] ["r"] fsRootOnly, ¬ under e c.1)) := by
  intro h
  have h2 := (h ["r"] (by simp)).2 (["r", "a.md"], .ok ['x']) (by decide)
  exact h2 ⟨["a.md"], by simp, rfl⟩

/-- C4 (amended): for every directory in the exclusion set that is neither
the root itself nor an ancestor of the root, the traversal never reaches
that directory or anything below it, and no candidate file is a descendant
of it. -/
theorem C4_excluded_dir_pruned (E : List FsPath) (out : FsPath) (e root : FsPath)
    (fs : FS) (he : e ∈ E) (hroot : ¬ reaches e root) :
    (∀ v ∈ walkDirs E root fs, ¬ reaches e v) ∧
    (∀ c ∈ mdFiles E out root fs, ¬ under e c.1) := by
  refine ⟨walkDirs_not_reaches E e he root fs hroot, ?_⟩
  rintro c hc ⟨r, _, hr⟩
  exact mdFiles_not_reaches E out e he root fs hroot c hc ⟨r, hr⟩

/-- Sample tree for C4: an excluded subdirectory `skip` beside `x.md`. -/
def fsSkipSample : FS :=
  FS.node (.cons "skip" (FS.node .nil [("y.md", .ok [])]) .nil) [("x.md", .ok [])]

/-- C4 witness: excluding `/r/skip` prunes the traversal and keeps all of
its descendants out of the candidates. -/
theorem C4_excluded_dir_pruned_witness :
    (["r", "skip"] ∈ ([["r", "skip"]] : List FsPath) ∧
      ¬ reaches ["r", "skip"] ["r"]) ∧
    (∀ v ∈ walkDirs [["r", "skip"]] ["r"] fsSkipSample, ¬ reaches ["r", "skip"] v) ∧
    (∀ c ∈ mdFiles [["r", "skip"]] ["o.md"] ["r"] fsSkipSample,
      ¬ under ["r", "skip"] c.1) :=
  ⟨⟨by simp, by rintro ⟨r, hr⟩; simp at hr⟩,
    C4_excluded_dir_pruned [["r", "skip"]] ["o.md"] ["r", "skip"] ["r"] fsSkipSample
      (by simp) (by rintro ⟨r, hr⟩; simp at hr)⟩

/-- Sample tree for C5: the only file sits inside an excluded directory. -/
def fsHiddenSample : FS :=
  FS.node (.cons "a" (FS.node .nil [("b.md", .ok [])]) .nil) []

/-- C5 counterexample: the claim's iff fails for a file inside an excluded
directory: `/r/a/b.md` ends in `.md`, its own path is not excluded and it is
not the output file, yet it is not a candidate because the traversal never
descends into the excluded `/r/a`. -/
theorem C5_candidate_iff_cex :
    ¬ (∀ f ∈ allFiles ["r"] fsHiddenSample,
        (f ∈ mdFiles [["r", "a"]] ["o.md"] ["r"] fsHiddenSample ↔
          isMd (lastSeg f.1) = true ∧ f.1 ∉ [["r", "a"]] ∧ f.1 ≠ ["o.md"])) := by
  intro h
  have h2 := h (["r", "a", "b.md"], .ok []) (by decide)
  have h3 := h2.mpr ⟨by decide, by decide, by decide⟩
  exact absurd h3 (by decide)

/-- C5 (amended): for every file under the root none of whose ancestor
directories strictly below the root is in the exclusion set, the Scanner
includes it if and only if its name's lowercased form ends in `.md`, its
absolute path is not in the exclusion set, and its absolute path is not the
output file's path. -/
theorem C5_candidate_iff (E : List FsPath) (out root : FsPath) (fs : FS)
    (f : FsPath × ReadResult) (hf : f ∈ allFiles root fs)
    (hanc : ∀ q, under root q → under q f.1 → q ∉ E) :
    f ∈ mdFiles E out root fs ↔
      (isMd (lastSeg f.1) = true ∧ f.1 ∉ E ∧ f.1 ≠ out) := by
  constructor
  · intro h
    obtain ⟨h1, h2, h3, _⟩ := mdFiles_props E out root fs f h
    exact ⟨h1, h2, h3⟩
  · rintro ⟨h1, h2, h3⟩
    exact allFiles_mem_mdFiles E out root f hanc h1 h2 h3 root fs ⟨[], by simp⟩ hf

/-- C5 witness: the amended iff at a concrete readable tree, showing both a
selected `.md` file and the excluded-by-extension direction. -/
theorem C5_candidate_iff_witness :
    ((["r", "a.md"], ReadResult.ok ['x']) ∈ allFiles ["r"] fsRootOnly ∧
      (∀ q, under ["r"] q → under q (["r", "a.md"] : FsPath) → q ∉ ([] : List FsPath))) ∧
    ((["r", "a.md"], ReadResult.ok ['x']) ∈ mdFiles [] ["o.md"] ["r"] fsRootOnly ↔
      (isMd (lastSeg (["r", "a.md"] : FsPath)) = true ∧
        (["r", "a.md"] : FsPath) ∉ ([] : List FsPath) ∧
        (["r", "a.md"] : FsPath) ≠ ["o.md"])) :=
  ⟨⟨by decide, fun q _ _ hq => by cases hq⟩,
    C5_candidate_iff [] ["o.md"] ["r"] fsRootOnly _ (by decide)
      (fun q _ _ hq => by cases hq)⟩

/-- C6: every candidate file appears in the section keyed by
`os.path.dirname` of its path relative to the root — which names its
immediate parent directory — that key is among the emitted section keys, the
candidate belongs to no other section, it is emitted exactly once overall,
and the key equals the rendered relative path of the immediate parent
directory (never an ancestor's). -/
theorem C6_unique_section (E : List FsPath) (out root : FsPath) (fs : FS)
    (hwf : fs.wf = true) (c : FsPath × ReadResult)
    (hc : c ∈ sortCands (mdFiles E out root fs)) :
    c ∈ sectionFiles root (sortCands (mdFiles E out root fs)) (sectionKey root c.1) ∧
    sectionKey root c.1 ∈ sectionKeys root (sortCands (mdFiles E out root fs)) ∧
    (∀ k, c ∈ sectionFiles root (sortCands (mdFiles E out root fs)) k →
      k = sectionKey root c.1) ∧
    List.count c (orderedCands root (sortCands (mdFiles E out root fs))) = 1 ∧
    sectionKey root c.1 = renderRel ((c.1.drop root.length).dropLast) := by
  have hperm := sortCands_perm (mdFiles E out root fs)
  have hmem : c ∈ mdFiles E out root fs := hperm.mem_iff.mp hc
  have hnd : (sortCands (mdFiles E out root fs)).Nodup :=
    (hperm.nodup_iff).mpr (mdFiles_nodup E out root fs hwf)
  refine ⟨mem_sectionFiles_self _ _ _ hc, mem_sectionKeys _ _ _ hc,
    fun k hk => mem_sectionFiles_key _ _ _ _ hk,
    orderedCands_count_one _ _ _ hc hnd, ?_⟩
  obtain ⟨rel, hrne, hrel, hrg⟩ := mdFiles_goodRel E out root fs hwf c hmem
  unfold sectionKey
  rw [hrel, List.drop_left]
  exact dirname_renderRel rel hrne hrg

/-- Sample tree for C6: a root file and a file in a subdirectory. -/
def fsTwoLevel : FS :=
  FS.node (.cons "sub" (FS.node .nil [("b.md", .ok [])]) .nil) [("a.md", .ok [])]

/-- C6 witness: the grouping facts for `/r/sub/b.md` in a two-level tree. -/
theorem C6_unique_section_witness :
    (fsTwoLevel.wf = true ∧
      (["r", "sub", "b.md"], ReadResult.ok []) ∈
        sortCands (mdFiles [] ["o.md"] ["r"] fsTwoLevel)) ∧
    List.count (["r", "sub", "b.md"], ReadResult.ok [])
      (orderedCands ["r"] (sortCands (mdFiles [] ["o.md"] ["r"] fsTwoLevel))) = 1 ∧
    sectionKey ["r"] ["r", "sub", "b.md"] =
      renderRel ((["r", "sub", "b.md"].drop (["r"] : FsPath).length).dropLast) :=
  ⟨⟨by decide, by decide⟩,
    (C6_unique_section [] ["o.md"] ["r"] fsTwoLevel (by decide)
      (["r", "sub", "b.md"], ReadResult.ok []) (by decide)).2.2.2.1,
    (C6_unique_section [] ["o.md"] ["r"] fsTwoLevel (by decide)
      (["r", "sub", "b.md"], ReadResult.ok []) (by decide)).2.2.2.2⟩

/-- C7: the emitted ordering is a function of the set of candidates alone:
any two enumerations of the same candidates sort identically and render the
identical document; moreover the sorted candidate list is ascending by
absolute path string and the section keys are emitted in ascending
lexicographic order. -/
theorem C7_order_deterministic (root out : FsPath) (l1 l2 : List (FsPath × ReadResult))
    (hp : l1.Perm l2) (hnd : (l1.map fun c => renderAbs c.1).Nodup) :
    sortCands l1 = sortCands l2 ∧
    docFromCands root out (sortCands l1) = docFromCands root out (sortCands l2) ∧
    List.Sorted candLe (sortCands l1) ∧
    List.Sorted strLeP (sectionKeys root (sortCands l1)) := by
  have heq := sortCands_eq_of_perm l1 l2 hp hnd
  exact ⟨heq, by rw [heq], sortCands_sorted l1, sectionKeys_sorted root _⟩

/-- C7 witness: two opposite enumeration orders of the same two candidates
produce the same sorted list and the same document. -/
theorem C7_order_deterministic_witness :
    (([(["r", "b.md"], ReadResult.ok []), (["r", "a.md"], ReadResult.ok ['z'])] :
        List (FsPath × ReadResult)).Perm
      [(["r", "a.md"], ReadResult.ok ['z']), (["r", "b.md"], ReadResult.ok [])] ∧
     (([(["r", "b.md"], ReadResult.ok []), (["r", "a.md"], ReadResult.ok ['z'])] :
        List (FsPath × ReadResult)).map fun c => renderAbs c.1).Nodup) ∧
    sortCands [(["r", "b.md"], ReadResult.ok []), (["r", "a.md"], ReadResult.ok ['z'])] =
      sortCands [(["r", "a.md"], ReadResult.ok ['z']), (["r", "b.md"], ReadResult.ok [])] ∧
    docFromCands ["r"] ["o.md"]
        (sortCands [(["r", "b.md"], ReadResult.ok []), (["r", "a.md"], ReadResult.ok ['z'])]) =
      docFromCands ["r"] ["o.md"]
        (sortCands [(["r", "a.md"], ReadResult.ok ['z']), (["r", "b.md"], ReadResult.ok [])]) :=
  ⟨⟨by decide, by decide⟩,
    (C7_order_deterministic ["r"] ["o.md"] _ _ (by decide) (by decide)).1,
    (C7_order_deterministic ["r"] ["o.md"] _ _ (by decide) (by decide)).2.1⟩

/-- C8: `adjust_headings` with any non-positive shift returns the content
byte-identical. -/
theorem C8_nonpositive_shift_identity (content : List Char) (shift : Int)
    (h : shift ≤ 0) : adjust_headings content shift = content := by
  unfold adjust_headings
  rw [if_pos h]

/-- C8 witness: shift `-2` on a content with a heading-like line. -/
theorem C8_nonpositive_shift_identity_witness :
    ((-2 : Int) ≤ 0) ∧ adjust_headings ['#', ' ', 'a'] (-2) = ['#', ' ', 'a'] :=
  ⟨by decide, C8_nonpositive_shift_identity ['#', ' ', 'a'] (-2) (by decide)⟩

/-- C9: the writer emits the `### File:` sub-heading and the `*Path: ...*`
line before the file is opened, so both branches of the per-file body —
error placeholder and successful content — share the identical `fileHead`
prefix: on a read error only the content part is replaced. -/
theorem C9_header_before_read (root p : FsPath) (e : String) (content : List Char) :
    fileBlock root (p, .err e) =
      fileHead root p ++ ("**Error reading file: " ++ e ++ "**" ++ separatorStr) ∧
    fileBlock root (p, .ok content) =
      fileHead root p ++ ((adjust_headings content 3).asString ++ separatorStr) :=
  ⟨rfl, rfl⟩

/-- C10: an exclusion entry `"."` resolves to the root directory itself and
excludes nothing: pruning applies only to proper subdirectories met during
the walk, so the aggregated output (root files and subdirectory files alike)
is identical with and without that entry. -/
theorem C10_root_exclusion_noop (fs : FS) (root out : FsPath) (rest : List String) :
    aggregate_markdown_files fs root out ("." :: rest) =
      aggregate_markdown_files fs root out rest ∧
    mdFiles (("." :: rest).map (excludeResolve root)) out root fs =
      mdFiles (rest.map (excludeResolve root)) out root fs := by
  have h1 : ("." :: rest).map (excludeResolve root) =
      root :: rest.map (excludeResolve root) := by
    rw [List.map_cons]
    congr 1
  have h2 : mdFiles (root :: rest.map (excludeResolve root)) out root fs =
      mdFiles (rest.map (excludeResolve root)) out root fs :=
    mdFiles_root_exclude _ out root root fs ⟨[], by simp⟩
  constructor
  · unfold aggregate_markdown_files
    rw [h1, h2]
  · rw [h1, h2]
